import Mathlib

/-!
Verification of the go-obj object-file library against its specification.

This file gives a shallow embedding of the parts of the code relevant to the
claims under study:

* the interval map of package `internal/imap` (file `avl.go` and its
  companions), embedded as the in-order sequence of the AVL tree's nodes;
* the generic AVL tree of `internal/imap/avl.go`, embedded as a functional
  binary tree that carries the cached heights and (as data) the parent
  pointers maintained by the code;
* the byte-layout decoder of package `arch`, the relocation decoding of
  `obj/elfReloc.go`, the size synthesizer of `obj/size.go`, the section
  flags of `obj/obj.go`, and the open/resolve logic of `obj/elf.go`;
* the DWARF line-reader driver of package `dbg`.

Machine integers are embedded as `Nat` where the code performs no wrapping
arithmetic on them, and with explicit `% 2 ^ w` reductions where overflow
matters.
-/

namespace imap

/-- Half-open interval of addresses, from `internal/imap` (`Interval`). -/
structure Interval where
  Low : Nat
  High : Nat
deriving DecidableEq, Repr

/-- Source: `Interval.Empty`, `i.High <= i.Low`. -/
def Interval.Empty (i : Interval) : Bool :=
  i.High ≤ i.Low

/-- Source: `Interval.Contains`, `i.Low <= addr && addr < i.High`. -/
def Interval.Contains (i : Interval) (addr : Nat) : Bool :=
  i.Low ≤ addr && addr < i.High

/-- Source: `Interval.Subtract`. Returns the part of `i` below `o` and the
part of `i` above `o`; a missing part is the zero interval, exactly as the
Go function leaves the zero value in place. -/
def Interval.Subtract (i o : Interval) : Interval × Interval :=
  (if i.Low < o.Low then ⟨i.Low, o.Low⟩ else ⟨0, 0⟩,
   if o.High < i.High then ⟨o.High, i.High⟩ else ⟨0, 0⟩)

/-- One node of the interval map: the fields `key` (the interval low, the
AVL sort key), `high` and `value` of the source's `avlNode`. The tree
structure itself is embedded separately; an `Imap` is embedded as the
in-order sequence of its nodes, which the AVL layer maintains sorted by
`key` and which rebalancing never reorders. -/
structure Node (V : Type) where
  key : Nat
  high : Nat
  value : V
deriving DecidableEq, Repr

/-- Source: `avlNode.interval`. -/
def Node.interval {V : Type} (n : Node V) : Interval :=
  ⟨n.key, n.high⟩

variable {V : Type} [DecidableEq V]

/-- The `for` loop of `Imap.Insert` (splitting, truncating and deleting the
stored intervals that intersect the new one), applied to the in-order node
sequence starting at the node the loop currently examines. Returns `none`
for the early `return` in the equal-valued split case, otherwise the nodes
the loop leaves behind before the exit point, paired with the node sequence
from the loop's exit node (Go's `n` after the loop) onward. -/
def insertLoop (low high : Nat) (value : V) : List (Node V) → Option (List (Node V) × List (Node V))
  | [] => some ([], [])
  | n :: t =>
    if n.key < high then
      if n.key < low then
        if high < n.high then
          -- the new interval falls in the middle of n: split (or no-op)
          if n.value = value then none
          else some ([⟨n.key, low, n.value⟩], ⟨high, n.high, n.value⟩ :: t)
        else
          -- n overlaps the low end of the new interval: adjust n.high
          match insertLoop low high value t with
          | none => none
          | some (kept, rem) => some (⟨n.key, low, n.value⟩ :: kept, rem)
      else
        if high < n.high then
          -- n overlaps the high end of the new interval: adjust n.key, break
          some ([], ⟨high, n.high, n.value⟩ :: t)
        else
          -- the new interval covers n: delete it
          insertLoop low high value t
    else some ([], n :: t)

/-- Interval map, from `internal/imap`. The embedding stores the in-order
sequence of the AVL tree's nodes; node identity in the tree is realized by
position in the sequence. -/
structure Imap (V : Type) where
  nodes : List (Node V)
deriving DecidableEq, Repr

/-- Source: `Imap.Insert`. The first node examined (the first node `n` with
`low <= n.high`, which is also the `pred` the merge phase inspects) is taken
apart explicitly; `insertLoop` continues the loop over the following nodes.
The merge phase reads `pred`'s mutated fields: after the truncate case
`pred.high = low`, after the adjust-low case `pred.high` exceeds `high`, and
for nodes with nonempty intervals a deleted `pred` can never satisfy
`pred.high == low`, so the corresponding dead branches of the source are
dropped. -/
def Imap.Insert (m : Imap V) (key : Interval) (value : V) : Imap V :=
  if key.Empty then m else
  let low := key.Low
  let high := key.High
  let before := m.nodes.takeWhile fun n => n.high < low
  let rest := m.nodes.dropWhile fun n => n.high < low
  Imap.mk <|
    match rest with
    | [] =>
      -- no node overlaps or abuts: create the new node
      before ++ [⟨low, high, value⟩]
    | p :: t =>
      if p.key < high then
        if p.key < low then
          if high < p.high then
            -- split p around the new interval (or return, if values equal)
            if p.value = value then m.nodes
            else before ++ [⟨p.key, low, p.value⟩, ⟨low, high, value⟩, ⟨high, p.high, p.value⟩] ++ t
          else
            -- p truncated from above; it is the pred of the merge phase
            match insertLoop low high value t with
            | none => m.nodes
            | some (kept, rem) =>
              if p.value = value then
                -- extend the predecessor over the new range
                match rem with
                | n :: rem2 =>
                  if n.key = high ∧ n.value = value then
                    -- merged into the successor: extend pred, delete n
                    before ++ [⟨p.key, n.high, value⟩] ++ kept ++ rem2
                  else before ++ [⟨p.key, high, value⟩] ++ kept ++ rem
                | [] => before ++ [⟨p.key, high, value⟩] ++ kept
              else
                match rem with
                | n :: rem2 =>
                  if n.key = high ∧ n.value = value then
                    -- extend the successor over the new range
                    before ++ [⟨p.key, low, p.value⟩] ++ kept ++ [⟨low, n.high, value⟩] ++ rem2
                  else before ++ [⟨p.key, low, p.value⟩] ++ kept ++ [⟨low, high, value⟩] ++ rem
                | [] => before ++ [⟨p.key, low, p.value⟩] ++ kept ++ [⟨low, high, value⟩]
        else
          if high < p.high then
            -- p truncated from below; loop exits with n = p, key = high
            if p.value = value then before ++ [⟨low, p.high, value⟩] ++ t
            else before ++ [⟨low, high, value⟩, ⟨high, p.high, p.value⟩] ++ t
          else
            -- p deleted; loop continues; pred is dead and cannot merge
            match insertLoop low high value t with
            | none => m.nodes
            | some (kept, rem) =>
              match rem with
              | n :: rem2 =>
                if n.key = high ∧ n.value = value then before ++ kept ++ [⟨low, n.high, value⟩] ++ rem2
                else before ++ kept ++ [⟨low, high, value⟩] ++ rem
              | [] => before ++ kept ++ [⟨low, high, value⟩]
      else
        -- p is beyond the new interval: the loop never runs, n = pred = p
        if p.key = high ∧ p.value = value then before ++ [⟨low, p.high, value⟩] ++ t
        else before ++ [⟨low, high, value⟩] ++ p :: t

/-- Source: `Imap.Find`. `Search` returns the first (in order) node with
`addr < n.high`; the result is that node's interval and value when the node
contains `addr`. -/
def Imap.Find (m : Imap V) (addr : Nat) : Option (Interval × V) :=
  match m.nodes.find? fun n => addr < n.high with
  | some n => if n.key ≤ addr then some (n.interval, n.value) else none
  | none => none

/-- Source: `Imap.Iter`, as the sequence of nodes the iterator visits: it
starts on the first node with `addr < n.high` and steps through the
in-order successors. -/
def Imap.Iter (m : Imap V) (addr : Nat) : List (Node V) :=
  m.nodes.dropWhile fun n => n.high ≤ addr

/-- The empty interval map (the zero value `Imap{}`). -/
def Imap.empty (V : Type) : Imap V := ⟨[]⟩

end imap

namespace imap

variable {V : Type} [DecidableEq V]

/-- Separation of two stored nodes as the map's invariant requires for a
node and a node following it: disjoint, and carrying distinct values when
they abut. -/
def Sep (a b : Node V) : Prop :=
  a.high ≤ b.key ∧ (a.high = b.key → a.value ≠ b.value)

/-- Invariant of the stored node sequence: every stored interval is
nonempty, and adjacent nodes are separated. -/
def Inv (l : List (Node V)) : Prop :=
  (∀ n ∈ l, n.key < n.high) ∧ l.Chain' Sep

/-- First stored node whose high end is beyond the address: the result of
the tree search used by Find and Iter. -/
def findN (l : List (Node V)) (x : Nat) : Option (Node V) :=
  l.find? fun n => x < n.high

/-- The node Find would report: the search result, if it contains the
address. -/
def lookup (l : List (Node V)) (x : Nat) : Option (Node V) :=
  match findN l x with
  | some n => if n.key ≤ x then some n else none
  | none => none

/-- The value Find would report at an address. -/
def findVal (l : List (Node V)) (x : Nat) : Option V :=
  (lookup l x).map Node.value

/-- Closed form of the node sequence from the loop's exit node onward, for
node sequences whose every node starts at or after the inserted low (which
the tree's sortedness guarantees for the nodes after the first): covered
nodes are deleted, a node reaching past the inserted high is truncated from
below, and the loop exits at the first node starting at or after high. -/
def loopRem (high : Nat) : List (Node V) → List (Node V)
  | [] => []
  | n :: t =>
    if n.key < high then
      if high < n.high then Node.mk high n.high n.value :: t
      else loopRem high t
    else n :: t

/-- Result of applying a sequence of Insert operations to an initially
empty imap. -/
def applyInserts (ops : List (Interval × V)) : Imap V :=
  ops.foldl (fun m op => m.Insert op.1 op.2) (Imap.empty V)

/-- The specification-level semantics of an insert sequence: at each
address, the value of the last insert covering it. -/
def semVal (ops : List (Interval × V)) (x : Nat) : Option V :=
  ops.foldl (fun acc op => if op.1.Contains x then some op.2 else acc) none

instance (a b : Node V) : Decidable (Sep a b) :=
  inferInstanceAs (Decidable (a.high ≤ b.key ∧ (a.high = b.key → a.value ≠ b.value)))

end imap

namespace arch

/-- Data layout (byte order and word size) of an architecture, from
`package arch` (`Layout`): `order` is 0 for little endian and 1 for big
endian, `wordSize` the word size in bytes. -/
structure Layout where
  order : Nat
  wordSize : Nat
deriving DecidableEq

/-- Source: `Layout.Uint32`. The Go code indexes a byte slice that its
callers always pass with exactly four bytes; the embedding reads the
bytes positionally (missing positions read as 0, which no caller
exercises). -/
def Layout.Uint32 (l : Layout) (b : List Nat) : Nat :=
  if l.order = 0 then
    b.getD 0 0 ||| b.getD 1 0 <<< 8 ||| b.getD 2 0 <<< 16 ||| b.getD 3 0 <<< 24
  else
    b.getD 3 0 ||| b.getD 2 0 <<< 8 ||| b.getD 1 0 <<< 16 ||| b.getD 0 0 <<< 24

/-- Source: `Layout.Int32`, `int32(l.Uint32(b))`: the unsigned 32-bit
value reinterpreted as a signed two's-complement 32-bit value. -/
def Layout.Int32 (l : Layout) (b : List Nat) : Int :=
  let u := l.Uint32 b
  if u < 2 ^ 31 then (u : Int) else (u : Int) - 2 ^ 32

end arch

namespace obj

/-- Symbol identifier (`SymID`, a `uint32` in the source); `NoSym` is the
all-ones value `^SymID(0)`. -/
def NoSym : Nat := 2 ^ 32 - 1

/-- Source: `elfSymTab`, the fields `lookup` consults: the global symbol
index range `[start, end)` covered by this table (`end` is reserved in
Lean, so that field is named `stop`). -/
structure elfSymTab where
  start : Nat
  stop : Nat
deriving DecidableEq

/-- Source: `elfSymTab.lookup`. `SymID(elfSym) - 1 + s.start` is `uint32`
arithmetic, so subtracting 1 wraps; the embedding adds `2^32 - 1` (the
`uint32` representation of `-1`) and reduces mod `2^32`. -/
def elfSymTab.lookup (s : elfSymTab) (elfSym : Nat) : Nat × Bool :=
  let symID := (elfSym + (2 ^ 32 - 1) + s.start) % 2 ^ 32
  if s.start ≤ symID ∧ symID < s.stop then (symID, true) else (NoSym, false)

/-- Source: `RelocType`: the relocation class in the top 8 bits and the
class-relative type value in the low 24 bits of a `uint32`. -/
structure RelocType where
  n : Nat
deriving DecidableEq

/-- Source: `makeRelocType`. The source panics when `v` does not fit in
24 bits (`v&(1<<24-1) != v`); the ELF decoders only pass masked 8-bit
values, and the embedding packs the non-panicking case.
`uint32(cls<<24)` wraps mod `2^32`. -/
def makeRelocType (cls v : Nat) : RelocType :=
  ⟨(cls <<< 24) % 2 ^ 32 ||| v⟩

/-- Source: `Reloc`. The `int64` field `Addend` is embedded as `Int`. -/
structure Reloc where
  Addr : Nat
  Typ : RelocType
  Symbol : Nat
  Addend : Int
deriving DecidableEq

/-- `debug/elf`'s `R_SYM32`: `info >> 8`. -/
def R_SYM32 (info : Nat) : Nat := info >>> 8

/-- `debug/elf`'s `R_TYPE32`: `info & 0xff`. -/
def R_TYPE32 (info : Nat) : Nat := info &&& 0xff

/-- Source: `elfReadRela32`. The `Reader` cursor over the relocation
section's bytes is embedded as the remaining byte list; each iteration of
the source's loop runs while `r.Avail() >= 12` and consumes one 12-byte
entry (`off:u32`, `info:u32`, `addend:u32`), which the pattern matches
positionally. `int64(add)` converts the unsigned 32-bit addend value, so
the embedding injects the decoded `Nat` into `Int` unchanged. -/
def elfReadRela32 (l : arch.Layout) (symTab : elfSymTab) (relClass : Nat) :
    List Nat → List Reloc
  | b0 :: b1 :: b2 :: b3 :: b4 :: b5 :: b6 :: b7 :: b8 :: b9 :: b10 :: b11 :: rest =>
    let off := l.Uint32 [b0, b1, b2, b3]
    let info := l.Uint32 [b4, b5, b6, b7]
    let symID := (elfSymTab.lookup symTab (R_SYM32 info)).1
    let typ := R_TYPE32 info
    let add := l.Uint32 [b8, b9, b10, b11]
    Reloc.mk off (makeRelocType relClass typ) symID (Int.ofNat add) ::
      elfReadRela32 l symTab relClass rest
  | _ => []

/-- Source: `sectionFlagReadOnly` (`1 << iota`, iota = 0). -/
def sectionFlagReadOnly : Nat := 1

/-- Source: `sectionFlagZeroInitialized` (`1 << iota`, iota = 1). -/
def sectionFlagZeroInitialized : Nat := 2

/-- Modelled from the spec: section flags encode `read_only`,
`zero_initialized` and `mapped`; the `mapped` accessors are not among the
source files provided, so the flag is modelled as the next bit of the
flag word after the two bits the source declares. -/
def sectionFlagMapped : Nat := 4

/-- Source: `SectionFlags`, a `uint8` bit set. -/
structure SectionFlags where
  f : Nat
deriving DecidableEq

/-- Source: `SectionFlags.ReadOnly`. -/
def SectionFlags.ReadOnly (s : SectionFlags) : Bool :=
  s.f &&& sectionFlagReadOnly != 0

/-- Source: `SectionFlags.SetReadOnly`; `&^=` clears the bit, which on
the `uint8` flag word is a mask with the bit's 8-bit complement. -/
def SectionFlags.SetReadOnly (s : SectionFlags) (v : Bool) : SectionFlags :=
  if v then ⟨s.f ||| sectionFlagReadOnly⟩ else ⟨s.f &&& (255 - sectionFlagReadOnly)⟩

/-- Source: `SectionFlags.ZeroInitialize`. The source tests the
`sectionFlagReadOnly` bit (not `sectionFlagZeroInitialized`). -/
def SectionFlags.ZeroInitialize (s : SectionFlags) : Bool :=
  s.f &&& sectionFlagReadOnly != 0

/-- Source: `SectionFlags.SetZeroInitialized`. -/
def SectionFlags.SetZeroInitialized (s : SectionFlags) (v : Bool) : SectionFlags :=
  if v then ⟨s.f ||| sectionFlagZeroInitialized⟩
  else ⟨s.f &&& (255 - sectionFlagZeroInitialized)⟩

/-- Modelled from the spec: the `mapped` flag accessor. -/
def SectionFlags.Mapped (s : SectionFlags) : Bool :=
  s.f &&& sectionFlagMapped != 0

/-- Modelled from the spec: the `mapped` flag setter, in the style of the
source's other setters. -/
def SectionFlags.SetMapped (s : SectionFlags) (v : Bool) : SectionFlags :=
  if v then ⟨s.f ||| sectionFlagMapped⟩ else ⟨s.f &&& (255 - sectionFlagMapped)⟩

/-- `elf.SHT_NULL`. -/
def SHT_NULL : Nat := 0

/-- `elf.SHT_NOBITS`. -/
def SHT_NOBITS : Nat := 8

/-- `elf.SHF_WRITE`. -/
def SHF_WRITE : Nat := 1

/-- `elf.SHF_ALLOC`. -/
def SHF_ALLOC : Nat := 2

/-- The fields of an ELF section header (`elf.Section`) that `openElf`'s
section loop and `ResolveAddr` consult (`Type`, `Flags`, `Addr`, `Size`
in Go; lower-cased here because `Type` is reserved in Lean). -/
structure ElfSect where
  typ : Nat
  flags : Nat
  addr : Nat
  size : Nat
deriving DecidableEq

/-- The flag word `openElf` assigns to the section built from header `es`
of a file whose relocatable flag is `relocatable` (`elf.go` lines
133-144): `SetMapped(true)` iff the file is non-relocatable and the
header has ALLOC, `SetReadOnly(true)` iff WRITE is absent,
`SetZeroInitialized(true)` iff the type is NOBITS. -/
def openElfFlags (relocatable : Bool) (es : ElfSect) : SectionFlags :=
  let s : SectionFlags := ⟨0⟩
  let s := if !relocatable && (es.flags &&& SHF_ALLOC != 0) then s.SetMapped true else s
  let s := if es.flags &&& SHF_WRITE == 0 then s.SetReadOnly true else s
  if es.typ == SHT_NOBITS then s.SetZeroInitialized true else s

/-- The part of `elfFile` that `ResolveAddr` consults: the `relocatable`
flag (`ff.Type == elf.ET_REL`) and the section list built by walking the
ELF section headers in table order. -/
structure elfFile where
  relocatable : Bool
  headers : List ElfSect
deriving DecidableEq

/-- The section list `openElf` builds: all headers except `SHT_NULL`
entries, in table order. -/
def elfFile.sections (f : elfFile) : List ElfSect :=
  f.headers.filter fun es => es.typ != SHT_NULL

/-- Source: `elfFile.ResolveAddr`: `nil` for relocatable files; otherwise
the first section in table order that has the ALLOC flag and whose range
contains the address (`es.Addr <= addr && addr-es.Addr < es.Size`). -/
def elfFile.ResolveAddr (f : elfFile) (addr : Nat) : Option ElfSect :=
  if f.relocatable then none
  else f.sections.find? fun es =>
    es.flags &&& SHF_ALLOC != 0 && (decide (es.addr ≤ addr) && decide (addr - es.addr < es.size))

/-- The errors `Open` can report, with the message of an ELF-backend
error abstract (type `E`): the generic `unrecognized object file format`
error, the read error from sniffing the magic (which `Open` discards),
or an error from the ELF backend. -/
inductive ObjError (E : Type) where
  | unrecognizedFormat
  | readErr
  | elfErr (msg : E)
deriving DecidableEq

/-- Source: `openElf`, the format-sniffing prefix: `ReadAt` of the first
four bytes fails on shorter inputs; a magic mismatch returns
`(false, nil, nil)`; past the magic check everything (from `elf.NewFile`
on) is abstracted as the parameter `parse`, producing either a file of
type `F` or an ELF error of type `E`. The result mirrors the source's
`(bool, File, error)` triple. -/
def openElf {F E : Type} (parse : List Nat → Except E F) (input : List Nat) :
    Bool × Option F × Option (ObjError E) :=
  if input.length < 4 then (false, none, some ObjError.readErr)
  else if input.take 4 ≠ [0x7f, 0x45, 0x4c, 0x46] then (false, none, none)
  else
    match parse input with
    | Except.error e => (true, none, some (ObjError.elfErr e))
    | Except.ok f => (true, some f, none)

/-- Source: `Open`: if the ELF backend claims the input (`isElf`), return
its result; otherwise report `unrecognized object file format`. -/
def Open {F E : Type} (parse : List Nat → Except E F) (input : List Nat) :
    Option F × Option (ObjError E) :=
  match openElf parse input with
  | (true, f, err) => (f, err)
  | (false, _, _) => (none, some ObjError.unrecognizedFormat)

/-- The fields of a `Section` that `SynthesizeSizes` consults. Go
compares symbols' `Section` pointers; sections are embedded by value, and
since `openElf` gives distinct sections distinct dense `ID`s, value
equality coincides with pointer equality. -/
structure Section where
  ID : Nat
  Addr : Nat
  Size : Nat
deriving DecidableEq

/-- Source: the `SymKind` constants. -/
inductive SymKind where
  | SymUnknown
  | SymUndef
  | SymText
  | SymData
  | SymAbsolute
  | SymSection
  | SymBSS
  | SymROData
deriving DecidableEq

/-- The fields of a `Sym` that `SynthesizeSizes` consults;
`SizeSynthesized` is the flag `SetSizeSynthesized` sets. -/
structure Sym where
  Section : Option Section
  Value : Nat
  Size : Nat
  Kind : SymKind
  SizeSynthesized : Bool
deriving DecidableEq

/-- Dummy symbol for out-of-range index reads, which `SynthesizeSizes`
never performs (every index it stores is in range). -/
def symDummy : Sym := ⟨none, 0, 0, SymKind.SymUnknown, false⟩

/-- Dummy section for reading the section of a symbol that has none,
which `SynthesizeSizes` never performs on the indices it keeps. -/
def secDummy : Section := ⟨0, 0, 0⟩

/-- The first loop of `SynthesizeSizes` as it affects the symbols:
section symbols whose value is the section's start and whose size is 0
receive the section's size and are flagged synthesized. -/
def synthSectionSyms (syms : List Sym) : List Sym :=
  syms.map fun s =>
    match s.Section with
    | none => s
    | some sec =>
      if s.Kind = SymKind.SymSection then
        if s.Value = sec.Addr ∧ s.Size = 0 then
          { s with Size := sec.Size, SizeSynthesized := true }
        else s
      else s

/-- The `todo` index list the first loop of `SynthesizeSizes` collects:
data-bearing non-section symbols that are not past their section's end. -/
def sizeTodo (syms : List Sym) : List Nat :=
  (List.range syms.length).filter fun i =>
    match (syms.getD i symDummy).Section with
    | none => false
    | some sec =>
      (syms.getD i symDummy).Kind != SymKind.SymSection &&
        !decide ((syms.getD i symDummy).Value > sec.Addr + sec.Size)

/-- Source: the `sort.Slice` comparator of `SynthesizeSizes`: symbols in
distinct sections order by `Section.ID`, symbols in one section by
`Value`. -/
def todoLess (syms : List Sym) (i j : Nat) : Bool :=
  let si := syms.getD i symDummy
  let sj := syms.getD j symDummy
  if si.Section ≠ sj.Section then
    decide ((si.Section.getD secDummy).ID < (sj.Section.getD secDummy).ID)
  else decide (si.Value < sj.Value)

/-- Insert an index into a sorted index list: before the first entry it
compares strictly less than, hence after all entries tied with it. -/
def insertIdx (lt : Nat → Nat → Bool) (i : Nat) : List Nat → List Nat
  | [] => [i]
  | j :: t => if lt i j then i :: j :: t else j :: insertIdx lt i t

/-- Stable insertion sort of the `todo` list. `sort.Slice` is unstable in
general but runs exactly an insertion sort at small lengths, and an
insertion sort is a correct refinement of it at every length. -/
def sortIdx (lt : Nat → Nat → Bool) (l : List Nat) : List Nat :=
  l.foldl (fun acc i => insertIdx lt i acc) []

/-- The inner application loop of `SynthesizeSizes`: every zero-sized
member of the group receives the computed size and is flagged
synthesized. -/
def applyGroup (syms : List Sym) (group : List Nat) (size : Nat) : List Sym :=
  group.foldl
    (fun acc j =>
      if (acc.getD j symDummy).Size = 0 then
        acc.set j { acc.getD j symDummy with Size := size, SizeSynthesized := true }
      else acc)
    syms

/-- The group loop of `SynthesizeSizes` (`size.go` lines 44-87). Each
iteration takes the leading run of `todo` whose symbols share `s1`'s
value and section, then moves on (`todo = todo[group:]`, here
`rest.dropWhile`, since the head trivially matches itself). The source's
`anyZero` is initialized to `s1.Size == 0` and the scan re-tests
`s1.Size == 0` (not `s2`), so it is the constant `s1.Size == 0`,
transcribed as such. The extent is capped at the section's end unless
the next remaining index is in the same section, in which case it
reaches to that symbol's value. Each iteration consumes at least the
head of `todo`, so running it with `todo.length` as structural-recursion
fuel never reaches the fuel-exhaustion branch: that branch only fires
with an empty `todo`, where it coincides with the loop's exit. -/
def sizeGroups (fuel : Nat) (syms : List Sym) (todo : List Nat) : List Sym :=
  match fuel, todo with
  | _, [] => syms
  | 0, _ => syms
  | fuel + 1, i0 :: rest =>
    let s1 := syms.getD i0 symDummy
    let inGroup := fun j =>
      decide (s1.Value = (syms.getD j symDummy).Value) &&
        decide (s1.Section = (syms.getD j symDummy).Section)
    let todoRest := rest.dropWhile inGroup
    let anyZero := s1.Size == 0
    if anyZero then
      let size :=
        match todoRest with
        | [] => (s1.Section.getD secDummy).Addr + (s1.Section.getD secDummy).Size - s1.Value
        | jn :: _ =>
          if s1.Section ≠ (syms.getD jn symDummy).Section then
            (s1.Section.getD secDummy).Addr + (s1.Section.getD secDummy).Size - s1.Value
          else (syms.getD jn symDummy).Value - s1.Value
      sizeGroups fuel (applyGroup syms (i0 :: rest.takeWhile inGroup) size) todoRest
    else sizeGroups fuel syms todoRest

/-- Source: `SynthesizeSizes` (`size.go`): assigns sizes to symbols that
do not have sizes. The in-place mutation of the symbol slice is embedded
as returning the updated list; the first loop's section-symbol updates
and its `todo` collection commute (the updates touch only section
symbols, which `todo` excludes), so they are split into two passes. -/
def SynthesizeSizes (syms : List Sym) : List Sym :=
  let syms1 := synthSectionSyms syms
  let todo := sortIdx (todoLess syms1) (sizeTodo syms1)
  sizeGroups todo.length syms1 todo

end obj

namespace avl


/-- A node of the generic AVL tree of `internal/imap` (`avlNode`), with
the empty tree standing for a nil pointer. Node identity is its `key`
(keys are unique in the tree, since `Insert` refuses duplicates), so the
`parent` pointer is embedded as the parent's key, `none` for the root.
`heightCache` is the source's cached height field. -/
inductive AvlTree where
  | nil
  | node (left : AvlTree) (key : Nat) (right : AvlTree) (parent : Option Nat)
      (heightCache : Nat)
deriving DecidableEq

/-- Source: `avlNode.height`: 0 for nil, else the cached height. -/
def height : AvlTree → Nat
  | .nil => 0
  | .node _ _ _ _ hc => hc

/-- Source: `avlNode.updateHeight`: recompute the cache from the
children's caches. -/
def updateHeight : AvlTree → AvlTree
  | .nil => .nil
  | .node l k r p _ =>
    .node l k r p (if height l > height r then height l + 1 else height r + 1)

/-- Source: `avlNode.balance`: left cached height minus right cached
height (an `int` in Go). Only called on non-nil nodes. -/
def balance : AvlTree → Int
  | .nil => 0
  | .node l _ r _ _ => (height l : Int) - height r

/-- Overwrite the parent pointer of a subtree's root (the `x.parent = y`
assignments of the source, guarded there by nil checks that the nil case
of this function absorbs). -/
def setParent (p : Option Nat) : AvlTree → AvlTree
  | .nil => .nil
  | .node l k r _ hc => .node l k r p hc

/-- Source: `rotateLeft(np)`, for `n = *np` with right child `nr` and
`nrl = nr.left`: `n.parent, n.right, nr.parent, nr.left = nr, nrl,
n.parent, n`, `nrl.parent = n` if non-nil, then `n.updateHeight()` and
`nr.updateHeight()` in that order. A node without a right child is never
rotated left (the source would dereference nil); the catch-all returns
the tree unchanged. -/
def rotateLeft : AvlTree → AvlTree
  | .node l k (.node rl rk rr _ rhc) p hc =>
    updateHeight (.node (updateHeight (.node l k (setParent (some k) rl) (some rk) hc))
      rk rr p rhc)
  | t => t

/-- Source: `rotateRight(np)`, the mirror image of `rotateLeft`. -/
def rotateRight : AvlTree → AvlTree
  | .node (.node ll lk lr _ lhc) k r p hc =>
    updateHeight (.node ll lk
      (updateHeight (.node (setParent (some k) lr) k r (some lk) hc)) p lhc)
  | t => t

/-- One iteration of the source's `rebalance` loop at one node: update
the height cache, then if the balance factor leaves [-1, 1], rotate (with
a first rotation of the taller child when its balance points the other
way). The loop itself walks from a start node to the root via parent
pointers; in this embedding each tree operation applies `rebalanceStep`
to every ancestor of its change site on the way back up, which visits
the same nodes in the same (leaf-to-root) order. -/
def rebalanceStep : AvlTree → AvlTree
  | .nil => .nil
  | .node l k r p _ =>
    let hc := if height l > height r then height l + 1 else height r + 1
    let b : Int := (height l : Int) - height r
    if b > 1 then
      if balance l < 0 then rotateRight (.node (rotateLeft l) k r p hc)
      else rotateRight (.node l k r p hc)
    else if b < -1 then
      if balance r > 0 then rotateLeft (.node l k (rotateRight r) p hc)
      else rotateLeft (.node l k r p hc)
    else .node l k r p hc

/-- Source: `avlTree.Insert(key)`, descending from the root: go left on
smaller, right on larger, and stop without mutating anything when the
key is found (`none` here). A new leaf gets `heightCache = 1` and its
parent's key as parent pointer (`p` is `none` only at the root, matching
the source's `p` variable); `rebalance` then fixes every ancestor,
embedded as the `rebalanceStep` wrappers on the way back up. -/
def insertGo (k : Nat) (p : Option Nat) : AvlTree → Option AvlTree
  | .nil => some (.node .nil k .nil p 1)
  | .node l key r par hc =>
    if k < key then
      (insertGo k (some key) l).map fun l2 => rebalanceStep (.node l2 key r par hc)
    else if key < k then
      (insertGo k (some key) r).map fun r2 => rebalanceStep (.node l key r2 par hc)
    else none

/-- `avlTree.Insert` as a tree transformer (the tree is unchanged when
the key already exists). -/
def insert (k : Nat) (t : AvlTree) : AvlTree :=
  (insertGo k none t).getD t

/-- The in-order successor walk of `avlTree.Delete`'s two-children case,
together with the final splice: remove the leftmost node of a subtree,
returning its key and the remaining subtree. The spliced-out node's
right child inherits its parent pointer (`node.right.parent =
node.parent`), and `rebalance` fixes the ancestors within the subtree on
the way back up. -/
def removeMin : AvlTree → Nat × AvlTree
  | .nil => (0, .nil)
  | .node .nil k r p _ => (k, setParent p r)
  | .node (.node a b c d e) k r p hc =>
    let res := removeMin (.node a b c d e)
    (res.1, rebalanceStep (.node res.2 k r p hc))

/-- The removal itself in `avlTree.Delete`, once the node (with parent
pointer `p` and height cache `hc`) has been located, dispatching on its
children `l` and `r`. With at most one child the node is spliced out and
the child inherits the parent pointer. With two children the node is
transposed with its in-order successor `succ` (the minimum of the right
subtree) and then spliced out where the successor was: the result keeps
the node's position, parent and height cache but carries the successor's
key, its children's parent pointers point at the successor
(`succ.left.parent = succ`, `succ.right.parent = succ`), and `rebalance`
walks from the splice point (inside `removeMin`) up through this node. -/
def deleteRoot (p : Option Nat) (hc : Nat) : AvlTree → AvlTree → AvlTree
  | .nil, r => setParent p r
  | .node la lb lc ld le, .nil => setParent p (.node la lb lc ld le)
  | .node la lb lc ld le, .node ra rb rc rd re =>
    let res := removeMin (.node ra rb rc rd re)
    rebalanceStep (.node (setParent (some res.1) (.node la lb lc ld le)) res.1
      (setParent (some res.1) res.2) p hc)

/-- Source: `avlTree.Delete(node)`, locating the node by its key (the
source receives the node pointer; its position is determined by the
key), then removing it with `deleteRoot` and rebalancing every ancestor
(the `rebalanceStep` wrappers on the way back up, continuing the walk
`rebalance` starts at the splice point). `none` means the key is in no
node, on which the source is never called. -/
def deleteGo (k : Nat) : AvlTree → Option AvlTree
  | .nil => none
  | .node l key r p hc =>
    if k < key then
      (deleteGo k l).map fun l2 => rebalanceStep (.node l2 key r p hc)
    else if key < k then
      (deleteGo k r).map fun r2 => rebalanceStep (.node l key r2 p hc)
    else some (deleteRoot p hc l r)

/-- `avlTree.Delete` as a tree transformer (unchanged when the key is
absent, a case the source excludes by precondition). -/
def delete (k : Nat) (t : AvlTree) : AvlTree :=
  (deleteGo k t).getD t

/-- One tree operation: `Insert key` or `Delete` of the node with the
given key. -/
inductive AvlOp where
  | ins (k : Nat)
  | del (k : Nat)
deriving DecidableEq

/-- Apply one operation to the tree. -/
def applyOp (t : AvlTree) : AvlOp → AvlTree
  | .ins k => insert k t
  | .del k => delete k t

/-- The tree an operation sequence builds from the empty tree. -/
def runOps (ops : List AvlOp) : AvlTree :=
  ops.foldl applyOp .nil

/-- The true height of a subtree (what the caches are supposed to
store). -/
def realHeight : AvlTree → Nat
  | .nil => 0
  | .node l _ r _ _ => 1 + max (realHeight l) (realHeight r)

/-- Every height cache stores 1 + the maximum of the children's
heights. -/
def Hok : AvlTree → Prop
  | .nil => True
  | .node l _ r _ hc => Hok l ∧ Hok r ∧ hc = 1 + max (realHeight l) (realHeight r)

/-- Every node's children differ in height by at most one. -/
def Bal : AvlTree → Prop
  | .nil => True
  | .node l _ r _ _ =>
    Bal l ∧ Bal r ∧ realHeight l ≤ realHeight r + 1 ∧ realHeight r ≤ realHeight l + 1

/-- Every parent pointer names the node's actual parent (`q` is the key
of the expected parent, `none` at the root). -/
def ParentOk : AvlTree → Option Nat → Prop
  | .nil, _ => True
  | .node l k r p _, q => p = q ∧ ParentOk l (some k) ∧ ParentOk r (some k)

/-- Every key of the subtree satisfies a predicate. -/
def allKeys (P : Nat → Prop) : AvlTree → Prop
  | .nil => True
  | .node l k r _ _ => P k ∧ allKeys P l ∧ allKeys P r

/-- The search-tree ordering. -/
def SortedT : AvlTree → Prop
  | .nil => True
  | .node l k r _ _ =>
    SortedT l ∧ SortedT r ∧ allKeys (· < k) l ∧ allKeys (k < ·) r

/-- In-order key sequence. -/
def inorder : AvlTree → List Nat
  | .nil => []
  | .node l k r _ _ => inorder l ++ k :: inorder r

end avl

namespace dbg

/-- A row of a DWARF line table (`dwarf.LineEntry`), reduced to the two
fields the address iteration reads: `Address` and `EndSequence`. -/
structure Row where
  Address : Nat
  EndSequence : Bool
deriving DecidableEq

/-- Modelled from the spec: the net effect of positioning the underlying
`debug/dwarf` line reader in `LineReader.seek` (`dlr.Seek` to a waypoint
followed by `dlr.SeekPC(pc, &lr.Line)`): the first row of the
compilation unit's line table covering `pc` — a non-end row whose
half-open range up to the next table row contains `pc` — and the reader
position just past that row; `none` when no row covers `pc`
(`dlr.SeekPC` errors). The waypoint search only speeds up reaching that
row. The index argument accumulates the position. -/
def seekPCrows : List Row → Nat → Nat → Option (Nat × Row)
  | r1 :: r2 :: rest, pc, i =>
    if r1.EndSequence = false ∧ r1.Address ≤ pc ∧ pc < r2.Address then some (i + 1, r1)
    else seekPCrows (r2 :: rest) pc (i + 1)
  | _, _, _ => none

/-- Modelled from the spec: `dlr.Next(&lr.Line)`: the table row at the
reader position, advancing past it; `none` is `io.EOF` past the last
row. -/
def dlrNext (rows : List Row) (pos : Nat) : Option Row :=
  rows[pos]?

/-- The mutable fields of `LineReader` that `seek` and `Next` touch:
the current row `Line`, the scope map `ranges` (an `imap` from address
intervals to compilation units, embedded as its sorted node list with
units numbered), the scope-range iterator `rIter` (the node it points
at, `none` when invalid), the current compilation unit `cu` and the
line-table reader position `pos` within that unit's row list. -/
structure LRState where
  Line : Row
  ranges : List (imap.Node Nat)
  rIter : Option (imap.Node Nat)
  cu : Nat
  pos : Nat
deriving DecidableEq

/-- Source: `LineReader.seek(ranges, pc, subprogram)`. The stale-iterator
check keeps the current range node whenever it is valid and its interval
contains `pc` — even when `ranges` is a different map than the one the
iterator came from; only otherwise is a fresh iterator over `ranges`
obtained (`Iter(pc)`, whose first node is the first one with
`pc < high`), failing with `dwarf.ErrUnknownPC` when exhausted, and `pc`
is rounded up to that node's low end. The line reader of the node's unit
is then positioned at the row covering `pc` (see `seekPCrows`); a
positioning failure is returned as an error (`none`). -/
def seek (d : Nat → List Row) (ranges : List (imap.Node Nat)) (pc : Nat)
    (st : LRState) : Option LRState :=
  let step : Option (imap.Node Nat × Nat) :=
    match st.rIter with
    | some n =>
      if n.interval.Contains pc then some (n, pc)
      else match imap.findN ranges pc with
        | some n2 => some (n2, if pc < n2.key then n2.key else pc)
        | none => none
    | none =>
      match imap.findN ranges pc with
      | some n2 => some (n2, if pc < n2.key then n2.key else pc)
      | none => none
  match step with
  | none => none
  | some (n, pc2) =>
    match seekPCrows (d n.value) pc2 0 with
    | none => none
    | some (pos2, row) =>
      some { Line := row, ranges := ranges, rIter := some n, cu := n.value, pos := pos2 }

/-- Source: `LineReader.Next`. On an end-of-sequence row, re-seek at its
address (and once more one byte further should that seek land on
another end row); `ErrUnknownPC` becomes `io.EOF` and no row is
yielded (`none`). Otherwise advance the unit's line reader: a row
within the current scope node's range is yielded as is; a row at or past
its high end is clipped into a synthesized end-of-sequence row at that
high end; `io.EOF` from the table synthesizes an end-of-sequence row one
past the current address. A reader whose range iterator is invalid is
never advanced (the source would dereference nil). -/
def next (d : Nat → List Row) (st : LRState) : Option LRState :=
  if st.Line.EndSequence then
    match seek d st.ranges st.Line.Address st with
    | none => none
    | some st2 =>
      if st2.Line.EndSequence then seek d st.ranges (st2.Line.Address + 1) st2
      else some st2
  else
    match dlrNext (d st.cu) st.pos with
    | some row =>
      match st.rIter with
      | some n =>
        if row.Address < n.high then
          some { st with Line := row, pos := st.pos + 1 }
        else some { st with Line := ⟨n.high, true⟩, pos := st.pos + 1 }
      | none => none
    | none =>
      some { st with Line := ⟨st.Line.Address + 1, true⟩ }

/-- Source: `Data.LineReader()`: an unpositioned reader, `Line` an
end-of-sequence entry at address 0 and no valid range iterator. -/
def initLR : LRState :=
  ⟨⟨0, true⟩, [], none, 0, 0⟩

/-- The addresses the next `n` calls of `Next` yield (`none` marking a
failed call, after which iteration stops). -/
def traceNexts (d : Nat → List Row) (st : LRState) : Nat → List (Option Nat)
  | 0 => []
  | n + 1 =>
    match next d st with
    | none => [none]
    | some st2 => some st2.Line.Address :: traceNexts d st2 n

end dbg


namespace dbg

/-- Line table of the single compilation unit of the counterexample:
rows at addresses 15 and 25, and an end-of-sequence row at 35. -/
def lineD : Nat → List Row := fun _ =>
  [⟨15, false⟩, ⟨25, false⟩, ⟨35, true⟩]

/-- The scope map `SeekSubprogram` builds for a subprogram with the one
address range [10, 20) in unit 0 (one `Insert` per range). -/
def subMapC : List (imap.Node Nat) :=
  (imap.applyInserts [(⟨10, 20⟩, 0)]).nodes

/-- The unit map (`cuRanges`) of a file whose only unit covers
[0, 100). -/
def cuMapC : List (imap.Node Nat) :=
  (imap.applyInserts [(⟨0, 100⟩, 0)]).nodes

end dbg

namespace imap

variable {V : Type} [DecidableEq V]

theorem Find_eq_lookup (m : Imap V) (x : Nat) :
    m.Find x = (lookup m.nodes x).map fun n => (n.interval, n.value) := by
  unfold Imap.Find lookup findN
  cases m.nodes.find? fun n => x < n.high with
  | none => rfl
  | some n => by_cases h : n.key ≤ x <;> simp [h]

@[simp] theorem findN_nil (x : Nat) : findN ([] : List (Node V)) x = none := rfl

theorem findN_cons (n : Node V) (t : List (Node V)) (x : Nat) :
    findN (n :: t) x = if x < n.high then some n else findN t x := by
  unfold findN
  by_cases h : x < n.high <;> simp [List.find?_cons, h]

@[simp] theorem lookup_nil (x : Nat) : lookup ([] : List (Node V)) x = none := rfl

theorem lookup_cons (n : Node V) (t : List (Node V)) (x : Nat) :
    lookup (n :: t) x =
      if x < n.high then (if n.key ≤ x then some n else none) else lookup t x := by
  unfold lookup
  rw [findN_cons]
  by_cases h : x < n.high <;> simp [h]

theorem findN_eq_none_iff (l : List (Node V)) (x : Nat) :
    findN l x = none ↔ ∀ n ∈ l, n.high ≤ x := by
  unfold findN
  rw [List.find?_eq_none]
  constructor
  · intro h n hn
    exact Nat.not_lt.mp (by simpa using h n hn)
  · intro h n hn
    simpa using Nat.not_lt.mpr (h n hn)

theorem findN_append (a b : List (Node V)) (x : Nat) :
    findN (a ++ b) x = (findN a x).or (findN b x) := List.find?_append

theorem lookup_append_skip (a b : List (Node V)) (x : Nat)
    (h : ∀ n ∈ a, n.high ≤ x) : lookup (a ++ b) x = lookup b x := by
  unfold lookup
  rw [findN_append, (findN_eq_none_iff a x).mpr h, Option.none_or]

theorem lookup_append_stop (a b : List (Node V)) (x : Nat) (n : Node V)
    (h : findN a x = some n) : lookup (a ++ b) x = lookup a x := by
  unfold lookup
  rw [findN_append, h]
  rfl

theorem lookup_mem (l : List (Node V)) (x : Nat) (n : Node V)
    (h : lookup l x = some n) : n ∈ l ∧ n.key ≤ x ∧ x < n.high := by
  unfold lookup at h
  rcases hf : findN l x with _ | n2
  · rw [hf] at h; exact absurd h (by simp)
  · rw [hf] at h
    simp only at h
    by_cases hk : n2.key ≤ x
    · rw [if_pos hk] at h
      cases h
      unfold findN at hf
      refine ⟨List.mem_of_find?_eq_some hf, hk, ?_⟩
      have := List.find?_some hf
      simpa using this
    · rw [if_neg hk] at h; exact absurd h (by simp)

theorem inv_head_le {n : Node V} {t : List (Node V)}
    (hWF : ∀ m ∈ n :: t, m.key < m.high) (hC : List.Chain' Sep (n :: t)) :
    ∀ m ∈ t, n.high ≤ m.key := by
  induction t generalizing n with
  | nil => intro m hm; cases hm
  | cons b t2 ih =>
    intro m hm
    have hsep : Sep n b := List.chain'_cons.mp hC |>.1
    rcases List.mem_cons.mp hm with rfl | hm
    · exact hsep.1
    · have hWF2 : ∀ x ∈ b :: t2, x.key < x.high := fun x hx => hWF x (List.mem_cons_of_mem n hx)
      have hb := ih hWF2 (List.chain'_cons.mp hC).2 m hm
      have h1 : n.high ≤ b.key := hsep.1
      have hbb : b.key < b.high := hWF2 b (List.mem_cons_self b t2)
      omega

end imap

namespace imap

variable {V : Type} [DecidableEq V]

theorem insertLoop_eq_loopRem (low high : Nat) (value : V) (t : List (Node V))
    (h : ∀ n ∈ t, low ≤ n.key) :
    insertLoop low high value t = some ([], loopRem high t) := by
  induction t with
  | nil => rfl
  | cons n t ih =>
    have hn : low ≤ n.key := h n (List.mem_cons_self n t)
    have ht : ∀ x ∈ t, low ≤ x.key := fun x hx => h x (List.mem_cons_of_mem n hx)
    unfold insertLoop loopRem
    by_cases h1 : n.key < high
    · rw [if_pos h1, if_pos h1, if_neg (Nat.not_lt.mpr hn)]
      by_cases h2 : high < n.high
      · rw [if_pos h2, if_pos h2]
      · rw [if_neg h2, if_neg h2, ih ht]
    · rw [if_neg h1, if_neg h1]

theorem loopRem_key_ge (high : Nat) (t : List (Node V))
    (hWF : ∀ n ∈ t, n.key < n.high) (hC : List.Chain' Sep t) :
    ∀ n ∈ loopRem high t, high ≤ n.key := by
  induction t with
  | nil => intro n hn; cases hn
  | cons n t ih =>
    have hWFt : ∀ x ∈ t, x.key < x.high := fun x hx => hWF x (List.mem_cons_of_mem n hx)
    have hle : ∀ x ∈ t, n.high ≤ x.key := inv_head_le hWF hC
    unfold loopRem
    by_cases h1 : n.key < high
    · rw [if_pos h1]
      by_cases h2 : high < n.high
      · rw [if_pos h2]
        intro x hx
        rcases List.mem_cons.mp hx with rfl | hx
        · exact Nat.le_refl high
        · exact Nat.le_of_lt (Nat.lt_of_lt_of_le h2 (hle x hx))
      · rw [if_neg h2]
        exact ih hWFt (List.chain'_cons'.mp hC).2
    · rw [if_neg h1]
      intro x hx
      rcases List.mem_cons.mp hx with rfl | hx
      · exact Nat.not_lt.mp h1
      · have := hle x hx
        have := hWF n (List.mem_cons_self n t)
        omega

theorem loopRem_WF (high : Nat) (t : List (Node V))
    (hWF : ∀ n ∈ t, n.key < n.high) :
    ∀ n ∈ loopRem high t, n.key < n.high := by
  induction t with
  | nil => intro n hn; cases hn
  | cons n t ih =>
    have hWFt : ∀ x ∈ t, x.key < x.high := fun x hx => hWF x (List.mem_cons_of_mem n hx)
    unfold loopRem
    by_cases h1 : n.key < high
    · rw [if_pos h1]
      by_cases h2 : high < n.high
      · rw [if_pos h2]
        intro x hx
        rcases List.mem_cons.mp hx with rfl | hx
        · exact h2
        · exact hWFt x hx
      · rw [if_neg h2]; exact ih hWFt
    · rw [if_neg h1]; exact hWF

theorem loopRem_chain (high : Nat) (t : List (Node V))
    (hC : List.Chain' Sep t) :
    List.Chain' Sep (loopRem high t) := by
  induction t with
  | nil => exact List.chain'_nil
  | cons n t ih =>
    unfold loopRem
    by_cases h1 : n.key < high
    · rw [if_pos h1]
      by_cases h2 : high < n.high
      · rw [if_pos h2]
        rcases t with _ | ⟨b, t2⟩
        · simp
        · have hsep : Sep n b := (List.chain'_cons.mp hC).1
          exact List.chain'_cons.mpr ⟨⟨hsep.1, fun h => hsep.2 h⟩, (List.chain'_cons.mp hC).2⟩
      · rw [if_neg h2]
        exact ih (List.chain'_cons'.mp hC).2
    · rw [if_neg h1]; exact hC

theorem findVal_loopRem_ge (high : Nat) (t : List (Node V)) (x : Nat)
    (hx : high ≤ x) : findVal (loopRem high t) x = findVal t x := by
  induction t with
  | nil => rfl
  | cons n t ih =>
    unfold loopRem
    by_cases h1 : n.key < high
    · rw [if_pos h1]
      by_cases h2 : high < n.high
      · rw [if_pos h2]
        unfold findVal
        rw [lookup_cons, lookup_cons]
        by_cases h3 : x < n.high
        · rw [if_pos h3, if_pos h3, if_pos ((by omega : n.key ≤ x)), if_pos ((by omega : high ≤ x))]
          rfl
        · rw [if_neg h3, if_neg h3]
      · rw [if_neg h2]
        have hcons : findVal (n :: t) x = findVal t x := by
          unfold findVal
          rw [lookup_cons, if_neg ((by omega : ¬ x < n.high))]
        rw [hcons]
        exact ih
    · rw [if_neg h1]

theorem findVal_loopRem_lt (high : Nat) (t : List (Node V)) (x : Nat)
    (hWF : ∀ n ∈ t, n.key < n.high) (hx : x < high) :
    findVal (loopRem high t) x = none := by
  induction t with
  | nil => rfl
  | cons n t ih =>
    have hWFt : ∀ y ∈ t, y.key < y.high := fun y hy => hWF y (List.mem_cons_of_mem n hy)
    unfold loopRem
    by_cases h1 : n.key < high
    · rw [if_pos h1]
      by_cases h2 : high < n.high
      · rw [if_pos h2]
        unfold findVal
        rw [lookup_cons, if_pos ((by omega : x < n.high)), if_neg ((by omega : ¬ high ≤ x))]
        rfl
      · rw [if_neg h2]; exact ih hWFt
    · rw [if_neg h1]
      have hn : n.key < n.high := hWF n (List.mem_cons_self n t)
      unfold findVal
      rw [lookup_cons, if_pos ((by omega : x < n.high)), if_neg ((by omega : ¬ n.key ≤ x))]
      rfl

end imap

namespace imap

variable {V : Type} [DecidableEq V]

theorem dropWhile_head_false {α : Type} (p : α → Bool) (l : List α) (x : α) (xs : List α)
    (h : l.dropWhile p = x :: xs) : p x = false := by
  induction l with
  | nil => cases h
  | cons a l ih =>
    rw [List.dropWhile_cons] at h
    by_cases hp : p a = true
    · rw [if_pos hp] at h; exact ih h
    · rw [if_neg hp] at h
      cases h
      exact Bool.eq_false_iff.mpr hp

theorem Insert_empty (m : Imap V) (key : Interval) (value : V)
    (h : key.Empty = true) : m.Insert key value = m := by
  unfold Imap.Insert
  rw [h]
  rfl

theorem Insert_E1 (m : Imap V) (key : Interval) (value : V)
    (hlh : key.Low < key.High)
    (hrest : m.nodes.dropWhile (fun n => n.high < key.Low) = []) :
    (m.Insert key value).nodes =
      (m.nodes.takeWhile fun n => n.high < key.Low) ++ [⟨key.Low, key.High, value⟩] := by
  have hE : key.Empty = false := by
    unfold Interval.Empty
    simp only [decide_eq_false_iff_not]
    omega
  unfold Imap.Insert
  rw [hE]
  simp only [Bool.false_eq_true, if_false, hrest]

end imap

namespace imap

variable {V : Type} [DecidableEq V]

theorem Insert_E2 (m : Imap V) (key : Interval) (value : V) (p : Node V) (t : List (Node V))
    (hlh : key.Low < key.High)
    (hrest : m.nodes.dropWhile (fun n => n.high < key.Low) = p :: t)
    (h1 : p.key < key.High) (h2 : p.key < key.Low) (h3 : key.High < p.high)
    (h4 : p.value = value) :
    (m.Insert key value).nodes = m.nodes := by
  have hE : key.Empty = false := by
    unfold Interval.Empty
    simp only [decide_eq_false_iff_not]
    omega
  unfold Imap.Insert
  rw [hE]
  simp only [Bool.false_eq_true, if_false, hrest]
  rw [if_pos h1, if_pos h2, if_pos h3, if_pos h4]

theorem Insert_E3 (m : Imap V) (key : Interval) (value : V) (p : Node V) (t : List (Node V))
    (hlh : key.Low < key.High)
    (hrest : m.nodes.dropWhile (fun n => n.high < key.Low) = p :: t)
    (h1 : p.key < key.High) (h2 : p.key < key.Low) (h3 : key.High < p.high)
    (h4 : ¬ p.value = value) :
    (m.Insert key value).nodes =
      (m.nodes.takeWhile fun n => n.high < key.Low) ++
        [⟨p.key, key.Low, p.value⟩, ⟨key.Low, key.High, value⟩, ⟨key.High, p.high, p.value⟩] ++ t := by
  have hE : key.Empty = false := by
    unfold Interval.Empty
    simp only [decide_eq_false_iff_not]
    omega
  unfold Imap.Insert
  rw [hE]
  simp only [Bool.false_eq_true, if_false, hrest]
  rw [if_pos h1, if_pos h2, if_pos h3, if_neg h4]

theorem Insert_E4a (m : Imap V) (key : Interval) (value : V) (p n : Node V)
    (t rem2 : List (Node V))
    (hlh : key.Low < key.High)
    (hrest : m.nodes.dropWhile (fun n => n.high < key.Low) = p :: t)
    (h1 : p.key < key.High) (h2 : p.key < key.Low) (h3 : ¬ key.High < p.high)
    (hloop : insertLoop key.Low key.High value t = some ([], n :: rem2))
    (h4 : p.value = value) (h5 : n.key = key.High ∧ n.value = value) :
    (m.Insert key value).nodes =
      (m.nodes.takeWhile fun n => n.high < key.Low) ++ [⟨p.key, n.high, value⟩] ++ rem2 := by
  have hE : key.Empty = false := by
    unfold Interval.Empty
    simp only [decide_eq_false_iff_not]
    omega
  unfold Imap.Insert
  rw [hE]
  simp only [Bool.false_eq_true, if_false, hrest]
  rw [if_pos h1, if_pos h2, if_neg h3]
  simp only [hloop]
  rw [if_pos h4, if_pos h5]
  simp

theorem Insert_E4b (m : Imap V) (key : Interval) (value : V) (p n : Node V)
    (t rem2 : List (Node V))
    (hlh : key.Low < key.High)
    (hrest : m.nodes.dropWhile (fun n => n.high < key.Low) = p :: t)
    (h1 : p.key < key.High) (h2 : p.key < key.Low) (h3 : ¬ key.High < p.high)
    (hloop : insertLoop key.Low key.High value t = some ([], n :: rem2))
    (h4 : p.value = value) (h5 : ¬ (n.key = key.High ∧ n.value = value)) :
    (m.Insert key value).nodes =
      (m.nodes.takeWhile fun n => n.high < key.Low) ++ [⟨p.key, key.High, value⟩] ++ n :: rem2 := by
  have hE : key.Empty = false := by
    unfold Interval.Empty
    simp only [decide_eq_false_iff_not]
    omega
  unfold Imap.Insert
  rw [hE]
  simp only [Bool.false_eq_true, if_false, hrest]
  rw [if_pos h1, if_pos h2, if_neg h3]
  simp only [hloop]
  rw [if_pos h4, if_neg h5]
  simp

theorem Insert_E4c (m : Imap V) (key : Interval) (value : V) (p : Node V) (t : List (Node V))
    (hlh : key.Low < key.High)
    (hrest : m.nodes.dropWhile (fun n => n.high < key.Low) = p :: t)
    (h1 : p.key < key.High) (h2 : p.key < key.Low) (h3 : ¬ key.High < p.high)
    (hloop : insertLoop key.Low key.High value t = some ([], []))
    (h4 : p.value = value) :
    (m.Insert key value).nodes =
      (m.nodes.takeWhile fun n => n.high < key.Low) ++ [⟨p.key, key.High, value⟩] := by
  have hE : key.Empty = false := by
    unfold Interval.Empty
    simp only [decide_eq_false_iff_not]
    omega
  unfold Imap.Insert
  rw [hE]
  simp only [Bool.false_eq_true, if_false, hrest]
  rw [if_pos h1, if_pos h2, if_neg h3]
  simp only [hloop]
  rw [if_pos h4]
  simp

theorem Insert_E4d (m : Imap V) (key : Interval) (value : V) (p n : Node V)
    (t rem2 : List (Node V))
    (hlh : key.Low < key.High)
    (hrest : m.nodes.dropWhile (fun n => n.high < key.Low) = p :: t)
    (h1 : p.key < key.High) (h2 : p.key < key.Low) (h3 : ¬ key.High < p.high)
    (hloop : insertLoop key.Low key.High value t = some ([], n :: rem2))
    (h4 : ¬ p.value = value) (h5 : n.key = key.High ∧ n.value = value) :
    (m.Insert key value).nodes =
      (m.nodes.takeWhile fun n => n.high < key.Low) ++
        [⟨p.key, key.Low, p.value⟩, ⟨key.Low, n.high, value⟩] ++ rem2 := by
  have hE : key.Empty = false := by
    unfold Interval.Empty
    simp only [decide_eq_false_iff_not]
    omega
  unfold Imap.Insert
  rw [hE]
  simp only [Bool.false_eq_true, if_false, hrest]
  rw [if_pos h1, if_pos h2, if_neg h3]
  simp only [hloop]
  rw [if_neg h4, if_pos h5]
  simp

theorem Insert_E4e (m : Imap V) (key : Interval) (value : V) (p n : Node V)
    (t rem2 : List (Node V))
    (hlh : key.Low < key.High)
    (hrest : m.nodes.dropWhile (fun n => n.high < key.Low) = p :: t)
    (h1 : p.key < key.High) (h2 : p.key < key.Low) (h3 : ¬ key.High < p.high)
    (hloop : insertLoop key.Low key.High value t = some ([], n :: rem2))
    (h4 : ¬ p.value = value) (h5 : ¬ (n.key = key.High ∧ n.value = value)) :
    (m.Insert key value).nodes =
      (m.nodes.takeWhile fun n => n.high < key.Low) ++
        [⟨p.key, key.Low, p.value⟩, ⟨key.Low, key.High, value⟩] ++ n :: rem2 := by
  have hE : key.Empty = false := by
    unfold Interval.Empty
    simp only [decide_eq_false_iff_not]
    omega
  unfold Imap.Insert
  rw [hE]
  simp only [Bool.false_eq_true, if_false, hrest]
  rw [if_pos h1, if_pos h2, if_neg h3]
  simp only [hloop]
  rw [if_neg h4, if_neg h5]
  simp

theorem Insert_E4f (m : Imap V) (key : Interval) (value : V) (p : Node V) (t : List (Node V))
    (hlh : key.Low < key.High)
    (hrest : m.nodes.dropWhile (fun n => n.high < key.Low) = p :: t)
    (h1 : p.key < key.High) (h2 : p.key < key.Low) (h3 : ¬ key.High < p.high)
    (hloop : insertLoop key.Low key.High value t = some ([], []))
    (h4 : ¬ p.value = value) :
    (m.Insert key value).nodes =
      (m.nodes.takeWhile fun n => n.high < key.Low) ++
        [⟨p.key, key.Low, p.value⟩, ⟨key.Low, key.High, value⟩] := by
  have hE : key.Empty = false := by
    unfold Interval.Empty
    simp only [decide_eq_false_iff_not]
    omega
  unfold Imap.Insert
  rw [hE]
  simp only [Bool.false_eq_true, if_false, hrest]
  rw [if_pos h1, if_pos h2, if_neg h3]
  simp only [hloop]
  rw [if_neg h4]
  simp

theorem Insert_E5a (m : Imap V) (key : Interval) (value : V) (p : Node V) (t : List (Node V))
    (hlh : key.Low < key.High)
    (hrest : m.nodes.dropWhile (fun n => n.high < key.Low) = p :: t)
    (h1 : p.key < key.High) (h2 : ¬ p.key < key.Low) (h3 : key.High < p.high)
    (h4 : p.value = value) :
    (m.Insert key value).nodes =
      (m.nodes.takeWhile fun n => n.high < key.Low) ++ [⟨key.Low, p.high, value⟩] ++ t := by
  have hE : key.Empty = false := by
    unfold Interval.Empty
    simp only [decide_eq_false_iff_not]
    omega
  unfold Imap.Insert
  rw [hE]
  simp only [Bool.false_eq_true, if_false, hrest]
  rw [if_pos h1, if_neg h2, if_pos h3, if_pos h4]

theorem Insert_E5b (m : Imap V) (key : Interval) (value : V) (p : Node V) (t : List (Node V))
    (hlh : key.Low < key.High)
    (hrest : m.nodes.dropWhile (fun n => n.high < key.Low) = p :: t)
    (h1 : p.key < key.High) (h2 : ¬ p.key < key.Low) (h3 : key.High < p.high)
    (h4 : ¬ p.value = value) :
    (m.Insert key value).nodes =
      (m.nodes.takeWhile fun n => n.high < key.Low) ++
        [⟨key.Low, key.High, value⟩, ⟨key.High, p.high, p.value⟩] ++ t := by
  have hE : key.Empty = false := by
    unfold Interval.Empty
    simp only [decide_eq_false_iff_not]
    omega
  unfold Imap.Insert
  rw [hE]
  simp only [Bool.false_eq_true, if_false, hrest]
  rw [if_pos h1, if_neg h2, if_pos h3, if_neg h4]

theorem Insert_E6a (m : Imap V) (key : Interval) (value : V) (p n : Node V)
    (t rem2 : List (Node V))
    (hlh : key.Low < key.High)
    (hrest : m.nodes.dropWhile (fun n => n.high < key.Low) = p :: t)
    (h1 : p.key < key.High) (h2 : ¬ p.key < key.Low) (h3 : ¬ key.High < p.high)
    (hloop : insertLoop key.Low key.High value t = some ([], n :: rem2))
    (h5 : n.key = key.High ∧ n.value = value) :
    (m.Insert key value).nodes =
      (m.nodes.takeWhile fun n => n.high < key.Low) ++ [⟨key.Low, n.high, value⟩] ++ rem2 := by
  have hE : key.Empty = false := by
    unfold Interval.Empty
    simp only [decide_eq_false_iff_not]
    omega
  unfold Imap.Insert
  rw [hE]
  simp only [Bool.false_eq_true, if_false, hrest]
  rw [if_pos h1, if_neg h2, if_neg h3]
  simp only [hloop]
  rw [if_pos h5]
  simp

theorem Insert_E6b (m : Imap V) (key : Interval) (value : V) (p n : Node V)
    (t rem2 : List (Node V))
    (hlh : key.Low < key.High)
    (hrest : m.nodes.dropWhile (fun n => n.high < key.Low) = p :: t)
    (h1 : p.key < key.High) (h2 : ¬ p.key < key.Low) (h3 : ¬ key.High < p.high)
    (hloop : insertLoop key.Low key.High value t = some ([], n :: rem2))
    (h5 : ¬ (n.key = key.High ∧ n.value = value)) :
    (m.Insert key value).nodes =
      (m.nodes.takeWhile fun n => n.high < key.Low) ++
        [⟨key.Low, key.High, value⟩] ++ n :: rem2 := by
  have hE : key.Empty = false := by
    unfold Interval.Empty
    simp only [decide_eq_false_iff_not]
    omega
  unfold Imap.Insert
  rw [hE]
  simp only [Bool.false_eq_true, if_false, hrest]
  rw [if_pos h1, if_neg h2, if_neg h3]
  simp only [hloop]
  rw [if_neg h5]
  simp

theorem Insert_E6c (m : Imap V) (key : Interval) (value : V) (p : Node V) (t : List (Node V))
    (hlh : key.Low < key.High)
    (hrest : m.nodes.dropWhile (fun n => n.high < key.Low) = p :: t)
    (h1 : p.key < key.High) (h2 : ¬ p.key < key.Low) (h3 : ¬ key.High < p.high)
    (hloop : insertLoop key.Low key.High value t = some ([], [])) :
    (m.Insert key value).nodes =
      (m.nodes.takeWhile fun n => n.high < key.Low) ++ [⟨key.Low, key.High, value⟩] := by
  have hE : key.Empty = false := by
    unfold Interval.Empty
    simp only [decide_eq_false_iff_not]
    omega
  unfold Imap.Insert
  rw [hE]
  simp only [Bool.false_eq_true, if_false, hrest]
  rw [if_pos h1, if_neg h2, if_neg h3]
  simp only [hloop]
  simp

theorem Insert_E7a (m : Imap V) (key : Interval) (value : V) (p : Node V) (t : List (Node V))
    (hlh : key.Low < key.High)
    (hrest : m.nodes.dropWhile (fun n => n.high < key.Low) = p :: t)
    (h1 : ¬ p.key < key.High) (h5 : p.key = key.High ∧ p.value = value) :
    (m.Insert key value).nodes =
      (m.nodes.takeWhile fun n => n.high < key.Low) ++ [⟨key.Low, p.high, value⟩] ++ t := by
  have hE : key.Empty = false := by
    unfold Interval.Empty
    simp only [decide_eq_false_iff_not]
    omega
  unfold Imap.Insert
  rw [hE]
  simp only [Bool.false_eq_true, if_false, hrest]
  rw [if_neg h1, if_pos h5]

theorem Insert_E7b (m : Imap V) (key : Interval) (value : V) (p : Node V) (t : List (Node V))
    (hlh : key.Low < key.High)
    (hrest : m.nodes.dropWhile (fun n => n.high < key.Low) = p :: t)
    (h1 : ¬ p.key < key.High) (h5 : ¬ (p.key = key.High ∧ p.value = value)) :
    (m.Insert key value).nodes =
      (m.nodes.takeWhile fun n => n.high < key.Low) ++
        [⟨key.Low, key.High, value⟩] ++ p :: t := by
  have hE : key.Empty = false := by
    unfold Interval.Empty
    simp only [decide_eq_false_iff_not]
    omega
  unfold Imap.Insert
  rw [hE]
  simp only [Bool.false_eq_true, if_false, hrest]
  rw [if_neg h1, if_neg h5]

end imap

namespace imap

variable {V : Type} [DecidableEq V]

theorem findVal_cons_some (n : Node V) (t : List (Node V)) (x : Nat)
    (h1 : x < n.high) (h2 : n.key ≤ x) : findVal (n :: t) x = some n.value := by
  unfold findVal
  rw [lookup_cons, if_pos h1, if_pos h2]
  rfl

theorem findVal_cons_none (n : Node V) (t : List (Node V)) (x : Nat)
    (h1 : x < n.high) (h2 : ¬ n.key ≤ x) : findVal (n :: t) x = none := by
  unfold findVal
  rw [lookup_cons, if_pos h1, if_neg h2]
  rfl

theorem findVal_cons_skip (n : Node V) (t : List (Node V)) (x : Nat)
    (h1 : ¬ x < n.high) : findVal (n :: t) x = findVal t x := by
  unfold findVal
  rw [lookup_cons, if_neg h1]

theorem findVal_append_skip (a b : List (Node V)) (x : Nat)
    (h : ∀ n ∈ a, n.high ≤ x) : findVal (a ++ b) x = findVal b x := by
  unfold findVal
  rw [lookup_append_skip a b x h]

theorem findVal_append_congr (a b c : List (Node V)) (x : Nat)
    (h : findVal b x = findVal c x) : findVal (a ++ b) x = findVal (a ++ c) x := by
  rcases hf : findN a x with _ | n
  · have hskip := (findN_eq_none_iff a x).mp hf
    rw [findVal_append_skip a b x hskip, findVal_append_skip a c x hskip, h]
  · unfold findVal
    rw [lookup_append_stop a b x n hf, lookup_append_stop a c x n hf]

theorem findVal_nil (x : Nat) : findVal ([] : List (Node V)) x = none := rfl

theorem Contains_true (key : Interval) (x : Nat) (h1 : key.Low ≤ x) (h2 : x < key.High) :
    key.Contains x = true := by
  unfold Interval.Contains
  simp [h1, h2]

theorem Contains_false (key : Interval) (x : Nat) (h : x < key.Low ∨ key.High ≤ x) :
    key.Contains x = false := by
  unfold Interval.Contains
  rcases h with h | h <;> simp <;> omega

end imap

namespace imap

variable {V : Type} [DecidableEq V]

theorem findVal_all_high_le (l : List (Node V)) (x : Nat)
    (h : ∀ n ∈ l, n.high ≤ x) : findVal l x = none := by
  unfold findVal lookup
  rw [(findN_eq_none_iff l x).mpr h]
  rfl


theorem findVal_mk_some (k h : Nat) (v : V) (t : List (Node V)) (x : Nat)
    (h1 : x < h) (h2 : k ≤ x) : findVal (⟨k, h, v⟩ :: t) x = some v :=
  findVal_cons_some ⟨k, h, v⟩ t x h1 h2

theorem findVal_mk_none (k h : Nat) (v : V) (t : List (Node V)) (x : Nat)
    (h1 : x < h) (h2 : ¬ k ≤ x) : findVal (⟨k, h, v⟩ :: t) x = none :=
  findVal_cons_none ⟨k, h, v⟩ t x h1 h2

theorem findVal_mk_skip (k h : Nat) (v : V) (t : List (Node V)) (x : Nat)
    (h1 : ¬ x < h) : findVal (⟨k, h, v⟩ :: t) x = findVal t x :=
  findVal_cons_skip ⟨k, h, v⟩ t x h1

/-- Effect of one Insert on the value stored at each address: inside the
inserted interval the new value, outside it the old one. -/
theorem findVal_Insert (m : Imap V) (key : Interval) (value : V) (x : Nat)
    (hInv : Inv m.nodes) :
    findVal (m.Insert key value).nodes x =
      if key.Contains x then some value else findVal m.nodes x := by
  by_cases hlh : key.Low < key.High
  case neg =>
    have hE : key.Empty = true := by
      unfold Interval.Empty
      simp only [decide_eq_true_eq]
      omega
    have hc : key.Contains x = false := by
      unfold Interval.Contains
      simp only [Bool.and_eq_false_iff, decide_eq_false_iff_not]
      omega
    rw [Insert_empty m key value hE, hc]
    simp
  case pos =>
  have hsplit : m.nodes =
      (m.nodes.takeWhile fun n => n.high < key.Low) ++
      (m.nodes.dropWhile fun n => n.high < key.Low) :=
    (List.takeWhile_append_dropWhile _ m.nodes).symm
  have hB : ∀ n ∈ (m.nodes.takeWhile fun n => n.high < key.Low), n.high < key.Low := by
    intro n hn
    simpa using List.mem_takeWhile_imp hn
  have hBx : ∀ y, key.Low ≤ y →
      ∀ n ∈ (m.nodes.takeWhile fun n => n.high < key.Low), n.high ≤ y :=
    fun y hy n hn => Nat.le_trans (Nat.le_of_lt (hB n hn)) hy
  rcases hR : m.nodes.dropWhile (fun n => n.high < key.Low) with _ | ⟨p, t⟩
  · -- no overlapping or abutting node: plain new node
    rw [Insert_E1 m key value hlh hR]
    have hm : m.nodes = m.nodes.takeWhile fun n => n.high < key.Low := by
      conv_lhs => rw [hsplit, hR]
      rw [List.append_nil]
    rcases Nat.lt_or_ge x key.Low with hx | hx
    · rw [Contains_false key x (Or.inl hx)]
      simp only [Bool.false_eq_true, if_false]
      conv_rhs => rw [hm]
      have h0 : findVal ([⟨key.Low, key.High, value⟩] : List (Node V)) x =
          findVal ([] : List (Node V)) x := by
        rw [findVal_mk_none key.Low key.High value [] x (by omega) (by omega)]
        rfl
      calc findVal ((m.nodes.takeWhile fun n => n.high < key.Low) ++ [⟨key.Low, key.High, value⟩]) x
          = findVal ((m.nodes.takeWhile fun n => n.high < key.Low) ++ []) x :=
            findVal_append_congr _ _ _ _ h0
        _ = _ := by rw [List.append_nil]
    · rcases Nat.lt_or_ge x key.High with hx2 | hx2
      · rw [Contains_true key x hx hx2]
        simp only [if_true]
        rw [findVal_append_skip _ _ _ (hBx x hx)]
        exact findVal_mk_some key.Low key.High value [] x hx2 hx
      · rw [Contains_false key x (Or.inr hx2)]
        simp only [Bool.false_eq_true, if_false]
        conv_rhs => rw [hm]
        rw [findVal_append_skip _ _ _ (hBx x (by omega)),
            findVal_mk_skip key.Low key.High value [] x (by omega),
            findVal_all_high_le _ x (hBx x (by omega))]
        rfl
  · -- rest = p :: t
    have hple : key.Low ≤ p.high := by
      have := dropWhile_head_false (fun n => n.high < key.Low) m.nodes p t hR
      simpa using this
    have hm : m.nodes = (m.nodes.takeWhile fun n => n.high < key.Low) ++ p :: t := by
      conv_lhs => rw [hsplit, hR]
    obtain ⟨hWF0, hChain0⟩ := hInv
    have hWF : ∀ n ∈ (m.nodes.takeWhile fun n => n.high < key.Low) ++ p :: t, n.key < n.high := by
      rw [← hm]; exact hWF0
    have hChain : List.Chain' Sep ((m.nodes.takeWhile fun n => n.high < key.Low) ++ p :: t) := by
      rw [← hm]; exact hChain0
    have hWFR : ∀ n ∈ p :: t, n.key < n.high := fun n hn =>
      hWF n (List.mem_append_right _ hn)
    have hWFt : ∀ n ∈ t, n.key < n.high := fun n hn => hWFR n (List.mem_cons_of_mem p hn)
    have hChainR : List.Chain' Sep (p :: t) := (List.chain'_append.mp hChain).2.1
    have hChaint : List.Chain' Sep t := (List.chain'_cons'.mp hChainR).2
    have hpwf : p.key < p.high := hWFR p (List.mem_cons_self p t)
    have htkey : ∀ n ∈ t, p.high ≤ n.key := inv_head_le hWFR hChainR
    have hLB : ∀ n ∈ t, key.Low ≤ n.key := fun n hn => Nat.le_trans hple (htkey n hn)
    have hloop := insertLoop_eq_loopRem key.Low key.High value t hLB
    have hWFlr := loopRem_WF key.High t hWFt
    have hkeylr := loopRem_key_ge key.High t hWFt hChaint
    -- comparing a mutated pred against the old p, below the inserted low
    have hpred : ∀ (H2 : Nat) (v2 : V) (L2 : List (Node V)), key.Low ≤ H2 → v2 = p.value →
        ∀ x2, x2 < key.Low →
        findVal (⟨p.key, H2, v2⟩ :: L2) x2 = findVal (p :: t) x2 := by
      intro H2 v2 L2 hH2 hv2 x2 hx2
      by_cases hpk : p.key ≤ x2
      · rw [findVal_mk_some p.key H2 v2 L2 x2 (by omega) hpk,
            findVal_cons_some p t x2 (by omega) hpk, hv2]
      · rw [findVal_mk_none p.key H2 v2 L2 x2 (by omega) hpk,
            findVal_cons_none p t x2 (by omega) hpk]
    -- a node created at the inserted low, below the inserted low, against
    -- a p that starts at or after the inserted low
    have hnew : ∀ (H2 : Nat) (v2 : V) (L2 : List (Node V)), key.Low ≤ H2 → key.Low ≤ p.key →
        ∀ x2, x2 < key.Low →
        findVal (⟨key.Low, H2, v2⟩ :: L2) x2 = findVal (p :: t) x2 := by
      intro H2 v2 L2 hH2 hpk2 x2 hx2
      rw [findVal_mk_none key.Low H2 v2 L2 x2 (by omega) (by omega),
          findVal_cons_none p t x2 (by omega) (by omega)]
    by_cases h1 : p.key < key.High
    · by_cases h2 : p.key < key.Low
      · by_cases h3 : key.High < p.high
        · by_cases h4 : p.value = value
          · -- split with equal value: no change and value already present
            rw [Insert_E2 m key value p t hlh hR h1 h2 h3 h4]
            rcases Nat.lt_or_ge x key.Low with hx | hx
            · rw [Contains_false key x (Or.inl hx)]
              simp
            · rcases Nat.lt_or_ge x key.High with hx2 | hx2
              · rw [Contains_true key x hx hx2]
                simp only [if_true]
                conv_lhs => rw [hm]
                rw [findVal_append_skip _ _ _ (hBx x hx),
                    findVal_cons_some p t x ((by omega : x < p.high)) ((by omega : p.key ≤ x)), h4]
              · rw [Contains_false key x (Or.inr hx2)]
                simp
          · -- split with distinct values
            rw [Insert_E3 m key value p t hlh hR h1 h2 h3 h4, List.append_assoc]
            simp only [List.cons_append, List.nil_append]
            rcases Nat.lt_or_ge x key.Low with hx | hx
            · rw [Contains_false key x (Or.inl hx)]
              simp only [Bool.false_eq_true, if_false]
              conv_rhs => rw [hm]
              exact findVal_append_congr _ _ _ _ (hpred key.Low p.value _ (Nat.le_refl _) rfl x hx)
            · rcases Nat.lt_or_ge x key.High with hx2 | hx2
              · rw [Contains_true key x hx hx2]
                simp only [if_true]
                rw [findVal_append_skip _ _ _ (hBx x hx),
                    findVal_mk_skip p.key key.Low p.value _ x (by omega),
                    findVal_mk_some key.Low key.High value _ x hx2 hx]
              · rw [Contains_false key x (Or.inr hx2)]
                simp only [Bool.false_eq_true, if_false]
                conv_rhs => rw [hm]
                rw [findVal_append_skip _ _ _ (hBx x (by omega)),
                    findVal_append_skip _ _ _ (hBx x (by omega)),
                    findVal_mk_skip p.key key.Low p.value _ x (by omega),
                    findVal_mk_skip key.Low key.High value _ x (by omega)]
                by_cases hph : x < p.high
                · rw [findVal_mk_some key.High p.high p.value t x hph ((by omega : key.High ≤ x)),
                      findVal_cons_some p t x hph ((by omega : p.key ≤ x))]
                · rw [findVal_mk_skip key.High p.high p.value t x hph,
                      findVal_cons_skip p t x hph]
        · -- p truncated from above (pred of the merge phase)
          have hph : p.high ≤ key.High := Nat.not_lt.mp h3
          rcases hlr : loopRem key.High t with _ | ⟨n, rem2⟩ <;> rw [hlr] at hloop
          · have hrem : ∀ y, key.High ≤ y → findVal t y = none := by
              intro y hy
              rw [← findVal_loopRem_ge key.High t y hy, hlr]
              rfl
            by_cases h4 : p.value = value
            · rw [Insert_E4c m key value p t hlh hR h1 h2 h3 hloop h4]
              rcases Nat.lt_or_ge x key.Low with hx | hx
              · rw [Contains_false key x (Or.inl hx)]
                simp only [Bool.false_eq_true, if_false]
                conv_rhs => rw [hm]
                exact findVal_append_congr _ _ _ _ (hpred key.High value _ (by omega) h4.symm x hx)
              · rcases Nat.lt_or_ge x key.High with hx2 | hx2
                · rw [Contains_true key x hx hx2]
                  simp only [if_true]
                  rw [findVal_append_skip _ _ _ (hBx x hx),
                      findVal_mk_some p.key key.High value _ x hx2 ((by omega : p.key ≤ x))]
                · rw [Contains_false key x (Or.inr hx2)]
                  simp only [Bool.false_eq_true, if_false]
                  conv_rhs => rw [hm]
                  rw [findVal_append_skip _ _ _ (hBx x (by omega)),
                      findVal_append_skip _ _ _ (hBx x (by omega)),
                      findVal_mk_skip p.key key.High value _ x ((by omega : ¬ x < key.High)),
                      findVal_cons_skip p t x ((by omega : ¬ x < p.high)),
                      hrem x hx2]
                  rfl
            · rw [Insert_E4f m key value p t hlh hR h1 h2 h3 hloop h4]
              rcases Nat.lt_or_ge x key.Low with hx | hx
              · rw [Contains_false key x (Or.inl hx)]
                simp only [Bool.false_eq_true, if_false]
                conv_rhs => rw [hm]
                exact findVal_append_congr _ _ _ _ (hpred key.Low p.value _ (Nat.le_refl _) rfl x hx)
              · rcases Nat.lt_or_ge x key.High with hx2 | hx2
                · rw [Contains_true key x hx hx2]
                  simp only [if_true]
                  rw [findVal_append_skip _ _ _ (hBx x hx),
                      findVal_mk_skip p.key key.Low p.value _ x ((by omega : ¬ x < key.Low)),
                      findVal_mk_some key.Low key.High value _ x hx2 hx]
                · rw [Contains_false key x (Or.inr hx2)]
                  simp only [Bool.false_eq_true, if_false]
                  conv_rhs => rw [hm]
                  rw [findVal_append_skip _ _ _ (hBx x (by omega)),
                      findVal_append_skip _ _ _ (hBx x (by omega)),
                      findVal_mk_skip p.key key.Low p.value _ x ((by omega : ¬ x < key.Low)),
                      findVal_mk_skip key.Low key.High value _ x ((by omega : ¬ x < key.High)),
                      findVal_cons_skip p t x ((by omega : ¬ x < p.high)),
                      hrem x hx2]
                  rfl
          · have hnk : key.High ≤ n.key := hkeylr n (by rw [hlr]; exact List.mem_cons_self n rem2)
            have hnwf : n.key < n.high := hWFlr n (by rw [hlr]; exact List.mem_cons_self n rem2)
            have hremge : ∀ y, key.High ≤ y → findVal (n :: rem2) y = findVal t y := by
              intro y hy
              rw [← findVal_loopRem_ge key.High t y hy, hlr]
            by_cases h4 : p.value = value
            · by_cases h5 : n.key = key.High ∧ n.value = value
              · rw [Insert_E4a m key value p n t rem2 hlh hR h1 h2 h3 hloop h4 h5,
                    List.append_assoc]
                simp only [List.cons_append, List.nil_append]
                rcases Nat.lt_or_ge x key.Low with hx | hx
                · rw [Contains_false key x (Or.inl hx)]
                  simp only [Bool.false_eq_true, if_false]
                  conv_rhs => rw [hm]
                  exact findVal_append_congr _ _ _ _ (hpred n.high value _ (by omega) h4.symm x hx)
                · rcases Nat.lt_or_ge x key.High with hx2 | hx2
                  · rw [Contains_true key x hx hx2]
                    simp only [if_true]
                    rw [findVal_append_skip _ _ _ (hBx x hx),
                        findVal_mk_some p.key n.high value _ x ((by omega : x < n.high)) ((by omega : p.key ≤ x))]
                  · rw [Contains_false key x (Or.inr hx2)]
                    simp only [Bool.false_eq_true, if_false]
                    conv_rhs => rw [hm]
                    rw [findVal_append_skip _ _ _ (hBx x (by omega)),
                        findVal_append_skip _ _ _ (hBx x (by omega)),
                        findVal_cons_skip p t x ((by omega : ¬ x < p.high)),
                        ← hremge x hx2]
                    by_cases hnh : x < n.high
                    · rw [findVal_mk_some p.key n.high value rem2 x hnh ((by omega : p.key ≤ x)),
                          findVal_cons_some n rem2 x hnh ((by omega : n.key ≤ x)), h5.2]
                    · rw [findVal_mk_skip p.key n.high value rem2 x hnh,
                          findVal_cons_skip n rem2 x hnh]
              · rw [Insert_E4b m key value p n t rem2 hlh hR h1 h2 h3 hloop h4 h5,
                    List.append_assoc]
                simp only [List.cons_append, List.nil_append]
                rcases Nat.lt_or_ge x key.Low with hx | hx
                · rw [Contains_false key x (Or.inl hx)]
                  simp only [Bool.false_eq_true, if_false]
                  conv_rhs => rw [hm]
                  exact findVal_append_congr _ _ _ _ (hpred key.High value _ (by omega) h4.symm x hx)
                · rcases Nat.lt_or_ge x key.High with hx2 | hx2
                  · rw [Contains_true key x hx hx2]
                    simp only [if_true]
                    rw [findVal_append_skip _ _ _ (hBx x hx),
                        findVal_mk_some p.key key.High value _ x hx2 ((by omega : p.key ≤ x))]
                  · rw [Contains_false key x (Or.inr hx2)]
                    simp only [Bool.false_eq_true, if_false]
                    conv_rhs => rw [hm]
                    rw [findVal_append_skip _ _ _ (hBx x (by omega)),
                        findVal_append_skip _ _ _ (hBx x (by omega)),
                        findVal_mk_skip p.key key.High value _ x ((by omega : ¬ x < key.High)),
                        findVal_cons_skip p t x ((by omega : ¬ x < p.high)),
                        ← hremge x hx2]
            · by_cases h5 : n.key = key.High ∧ n.value = value
              · rw [Insert_E4d m key value p n t rem2 hlh hR h1 h2 h3 hloop h4 h5,
                    List.append_assoc]
                simp only [List.cons_append, List.nil_append]
                rcases Nat.lt_or_ge x key.Low with hx | hx
                · rw [Contains_false key x (Or.inl hx)]
                  simp only [Bool.false_eq_true, if_false]
                  conv_rhs => rw [hm]
                  exact findVal_append_congr _ _ _ _ (hpred key.Low p.value _ (Nat.le_refl _) rfl x hx)
                · rcases Nat.lt_or_ge x key.High with hx2 | hx2
                  · rw [Contains_true key x hx hx2]
                    simp only [if_true]
                    rw [findVal_append_skip _ _ _ (hBx x hx),
                        findVal_mk_skip p.key key.Low p.value _ x ((by omega : ¬ x < key.Low)),
                        findVal_mk_some key.Low n.high value _ x ((by omega : x < n.high)) hx]
                  · rw [Contains_false key x (Or.inr hx2)]
                    simp only [Bool.false_eq_true, if_false]
                    conv_rhs => rw [hm]
                    rw [findVal_append_skip _ _ _ (hBx x (by omega)),
                        findVal_append_skip _ _ _ (hBx x (by omega)),
                        findVal_mk_skip p.key key.Low p.value _ x ((by omega : ¬ x < key.Low)),
                        findVal_cons_skip p t x ((by omega : ¬ x < p.high)),
                        ← hremge x hx2]
                    by_cases hnh : x < n.high
                    · rw [findVal_mk_some key.Low n.high value rem2 x hnh ((by omega : key.Low ≤ x)),
                          findVal_cons_some n rem2 x hnh ((by omega : n.key ≤ x)), h5.2]
                    · rw [findVal_mk_skip key.Low n.high value rem2 x hnh,
                          findVal_cons_skip n rem2 x hnh]
              · rw [Insert_E4e m key value p n t rem2 hlh hR h1 h2 h3 hloop h4 h5,
                    List.append_assoc]
                simp only [List.cons_append, List.nil_append]
                rcases Nat.lt_or_ge x key.Low with hx | hx
                · rw [Contains_false key x (Or.inl hx)]
                  simp only [Bool.false_eq_true, if_false]
                  conv_rhs => rw [hm]
                  exact findVal_append_congr _ _ _ _ (hpred key.Low p.value _ (Nat.le_refl _) rfl x hx)
                · rcases Nat.lt_or_ge x key.High with hx2 | hx2
                  · rw [Contains_true key x hx hx2]
                    simp only [if_true]
                    rw [findVal_append_skip _ _ _ (hBx x hx),
                        findVal_mk_skip p.key key.Low p.value _ x ((by omega : ¬ x < key.Low)),
                        findVal_mk_some key.Low key.High value _ x hx2 hx]
                  · rw [Contains_false key x (Or.inr hx2)]
                    simp only [Bool.false_eq_true, if_false]
                    conv_rhs => rw [hm]
                    rw [findVal_append_skip _ _ _ (hBx x (by omega)),
                        findVal_append_skip _ _ _ (hBx x (by omega)),
                        findVal_mk_skip p.key key.Low p.value _ x ((by omega : ¬ x < key.Low)),
                        findVal_mk_skip key.Low key.High value _ x ((by omega : ¬ x < key.High)),
                        findVal_cons_skip p t x ((by omega : ¬ x < p.high)),
                        ← hremge x hx2]
      · -- p starts at or after the inserted low
        have hpk0 : key.Low ≤ p.key := Nat.not_lt.mp h2
        by_cases h3 : key.High < p.high
        · by_cases h4 : p.value = value
          · rw [Insert_E5a m key value p t hlh hR h1 h2 h3 h4, List.append_assoc]
            simp only [List.cons_append, List.nil_append]
            rcases Nat.lt_or_ge x key.Low with hx | hx
            · rw [Contains_false key x (Or.inl hx)]
              simp only [Bool.false_eq_true, if_false]
              conv_rhs => rw [hm]
              exact findVal_append_congr _ _ _ _ (hnew p.high value _ (by omega) hpk0 x hx)
            · rcases Nat.lt_or_ge x key.High with hx2 | hx2
              · rw [Contains_true key x hx hx2]
                simp only [if_true]
                rw [findVal_append_skip _ _ _ (hBx x hx),
                    findVal_mk_some key.Low p.high value _ x ((by omega : x < p.high)) hx]
              · rw [Contains_false key x (Or.inr hx2)]
                simp only [Bool.false_eq_true, if_false]
                conv_rhs => rw [hm]
                rw [findVal_append_skip _ _ _ (hBx x (by omega)),
                    findVal_append_skip _ _ _ (hBx x (by omega))]
                by_cases hph2 : x < p.high
                · rw [findVal_mk_some key.Low p.high value t x hph2 ((by omega : key.Low ≤ x)),
                      findVal_cons_some p t x hph2 ((by omega : p.key ≤ x)), h4]
                · rw [findVal_mk_skip key.Low p.high value t x hph2,
                      findVal_cons_skip p t x hph2]
          · rw [Insert_E5b m key value p t hlh hR h1 h2 h3 h4, List.append_assoc]
            simp only [List.cons_append, List.nil_append]
            rcases Nat.lt_or_ge x key.Low with hx | hx
            · rw [Contains_false key x (Or.inl hx)]
              simp only [Bool.false_eq_true, if_false]
              conv_rhs => rw [hm]
              exact findVal_append_congr _ _ _ _ (hnew key.High value _ (by omega) hpk0 x hx)
            · rcases Nat.lt_or_ge x key.High with hx2 | hx2
              · rw [Contains_true key x hx hx2]
                simp only [if_true]
                rw [findVal_append_skip _ _ _ (hBx x hx),
                    findVal_mk_some key.Low key.High value _ x hx2 hx]
              · rw [Contains_false key x (Or.inr hx2)]
                simp only [Bool.false_eq_true, if_false]
                conv_rhs => rw [hm]
                rw [findVal_append_skip _ _ _ (hBx x (by omega)),
                    findVal_append_skip _ _ _ (hBx x (by omega)),
                    findVal_mk_skip key.Low key.High value _ x ((by omega : ¬ x < key.High))]
                by_cases hph2 : x < p.high
                · rw [findVal_mk_some key.High p.high p.value t x hph2 ((by omega : key.High ≤ x)),
                      findVal_cons_some p t x hph2 ((by omega : p.key ≤ x))]
                · rw [findVal_mk_skip key.High p.high p.value t x hph2,
                      findVal_cons_skip p t x hph2]
        · -- p deleted by the loop
          have hph : p.high ≤ key.High := Nat.not_lt.mp h3
          rcases hlr : loopRem key.High t with _ | ⟨n, rem2⟩ <;> rw [hlr] at hloop
          · have hrem : ∀ y, key.High ≤ y → findVal t y = none := by
              intro y hy
              rw [← findVal_loopRem_ge key.High t y hy, hlr]
              rfl
            rw [Insert_E6c m key value p t hlh hR h1 h2 h3 hloop]
            rcases Nat.lt_or_ge x key.Low with hx | hx
            · rw [Contains_false key x (Or.inl hx)]
              simp only [Bool.false_eq_true, if_false]
              conv_rhs => rw [hm]
              exact findVal_append_congr _ _ _ _ (hnew key.High value _ (by omega) hpk0 x hx)
            · rcases Nat.lt_or_ge x key.High with hx2 | hx2
              · rw [Contains_true key x hx hx2]
                simp only [if_true]
                rw [findVal_append_skip _ _ _ (hBx x hx),
                    findVal_mk_some key.Low key.High value _ x hx2 hx]
              · rw [Contains_false key x (Or.inr hx2)]
                simp only [Bool.false_eq_true, if_false]
                conv_rhs => rw [hm]
                rw [findVal_append_skip _ _ _ (hBx x (by omega)),
                    findVal_append_skip _ _ _ (hBx x (by omega)),
                    findVal_mk_skip key.Low key.High value _ x ((by omega : ¬ x < key.High)),
                    findVal_cons_skip p t x ((by omega : ¬ x < p.high)),
                    hrem x hx2]
                rfl
          · have hnk : key.High ≤ n.key := hkeylr n (by rw [hlr]; exact List.mem_cons_self n rem2)
            have hnwf : n.key < n.high := hWFlr n (by rw [hlr]; exact List.mem_cons_self n rem2)
            have hremge : ∀ y, key.High ≤ y → findVal (n :: rem2) y = findVal t y := by
              intro y hy
              rw [← findVal_loopRem_ge key.High t y hy, hlr]
            by_cases h5 : n.key = key.High ∧ n.value = value
            · rw [Insert_E6a m key value p n t rem2 hlh hR h1 h2 h3 hloop h5,
                  List.append_assoc]
              simp only [List.cons_append, List.nil_append]
              rcases Nat.lt_or_ge x key.Low with hx | hx
              · rw [Contains_false key x (Or.inl hx)]
                simp only [Bool.false_eq_true, if_false]
                conv_rhs => rw [hm]
                exact findVal_append_congr _ _ _ _ (hnew n.high value _ (by omega) hpk0 x hx)
              · rcases Nat.lt_or_ge x key.High with hx2 | hx2
                · rw [Contains_true key x hx hx2]
                  simp only [if_true]
                  rw [findVal_append_skip _ _ _ (hBx x hx),
                      findVal_mk_some key.Low n.high value _ x ((by omega : x < n.high)) hx]
                · rw [Contains_false key x (Or.inr hx2)]
                  simp only [Bool.false_eq_true, if_false]
                  conv_rhs => rw [hm]
                  rw [findVal_append_skip _ _ _ (hBx x (by omega)),
                      findVal_append_skip _ _ _ (hBx x (by omega)),
                      findVal_cons_skip p t x ((by omega : ¬ x < p.high)),
                      ← hremge x hx2]
                  by_cases hnh : x < n.high
                  · rw [findVal_mk_some key.Low n.high value rem2 x hnh ((by omega : key.Low ≤ x)),
                        findVal_cons_some n rem2 x hnh ((by omega : n.key ≤ x)), h5.2]
                  · rw [findVal_mk_skip key.Low n.high value rem2 x hnh,
                        findVal_cons_skip n rem2 x hnh]
            · rw [Insert_E6b m key value p n t rem2 hlh hR h1 h2 h3 hloop h5,
                  List.append_assoc]
              simp only [List.cons_append, List.nil_append]
              rcases Nat.lt_or_ge x key.Low with hx | hx
              · rw [Contains_false key x (Or.inl hx)]
                simp only [Bool.false_eq_true, if_false]
                conv_rhs => rw [hm]
                exact findVal_append_congr _ _ _ _ (hnew key.High value _ (by omega) hpk0 x hx)
              · rcases Nat.lt_or_ge x key.High with hx2 | hx2
                · rw [Contains_true key x hx hx2]
                  simp only [if_true]
                  rw [findVal_append_skip _ _ _ (hBx x hx),
                      findVal_mk_some key.Low key.High value _ x hx2 hx]
                · rw [Contains_false key x (Or.inr hx2)]
                  simp only [Bool.false_eq_true, if_false]
                  conv_rhs => rw [hm]
                  rw [findVal_append_skip _ _ _ (hBx x (by omega)),
                      findVal_append_skip _ _ _ (hBx x (by omega)),
                      findVal_mk_skip key.Low key.High value _ x ((by omega : ¬ x < key.High)),
                      findVal_cons_skip p t x ((by omega : ¬ x < p.high)),
                      ← hremge x hx2]
    · -- p entirely beyond the new interval
      have hpk1 : key.High ≤ p.key := Nat.not_lt.mp h1
      by_cases h5 : p.key = key.High ∧ p.value = value
      · rw [Insert_E7a m key value p t hlh hR h1 h5, List.append_assoc]
        simp only [List.cons_append, List.nil_append]
        rcases Nat.lt_or_ge x key.Low with hx | hx
        · rw [Contains_false key x (Or.inl hx)]
          simp only [Bool.false_eq_true, if_false]
          conv_rhs => rw [hm]
          exact findVal_append_congr _ _ _ _ (hnew p.high value _ (by omega) (by omega) x hx)
        · rcases Nat.lt_or_ge x key.High with hx2 | hx2
          · rw [Contains_true key x hx hx2]
            simp only [if_true]
            rw [findVal_append_skip _ _ _ (hBx x hx),
                findVal_mk_some key.Low p.high value _ x ((by omega : x < p.high)) hx]
          · rw [Contains_false key x (Or.inr hx2)]
            simp only [Bool.false_eq_true, if_false]
            conv_rhs => rw [hm]
            rw [findVal_append_skip _ _ _ (hBx x (by omega)),
                findVal_append_skip _ _ _ (hBx x (by omega))]
            by_cases hph2 : x < p.high
            · rw [findVal_mk_some key.Low p.high value t x hph2 ((by omega : key.Low ≤ x)),
                  findVal_cons_some p t x hph2 ((by omega : p.key ≤ x)), h5.2]
            · rw [findVal_mk_skip key.Low p.high value t x hph2,
                  findVal_cons_skip p t x hph2]
      · rw [Insert_E7b m key value p t hlh hR h1 h5, List.append_assoc]
        simp only [List.cons_append, List.nil_append]
        rcases Nat.lt_or_ge x key.Low with hx | hx
        · rw [Contains_false key x (Or.inl hx)]
          simp only [Bool.false_eq_true, if_false]
          conv_rhs => rw [hm]
          exact findVal_append_congr _ _ _ _ (hnew key.High value _ (by omega) (by omega) x hx)
        · rcases Nat.lt_or_ge x key.High with hx2 | hx2
          · rw [Contains_true key x hx hx2]
            simp only [if_true]
            rw [findVal_append_skip _ _ _ (hBx x hx),
                findVal_mk_some key.Low key.High value _ x hx2 hx]
          · rw [Contains_false key x (Or.inr hx2)]
            simp only [Bool.false_eq_true, if_false]
            conv_rhs => rw [hm]
            rw [findVal_append_skip _ _ _ (hBx x (by omega)),
                findVal_append_skip _ _ _ (hBx x (by omega)),
                findVal_mk_skip key.Low key.High value _ x ((by omega : ¬ x < key.High))]

end imap

namespace imap

variable {V : Type} [DecidableEq V]

theorem inv_build (B L : List (Node V)) (hwB : ∀ n ∈ B, n.key < n.high)
    (hcB : List.Chain' Sep B) (hwL : ∀ n ∈ L, n.key < n.high)
    (hcL : List.Chain' Sep L)
    (hlink : ∀ a ∈ B.getLast?, ∀ b ∈ L.head?, Sep a b) : Inv (B ++ L) := by
  constructor
  · intro q hq
    rcases List.mem_append.mp hq with h | h
    · exact hwB q h
    · exact hwL q h
  · exact List.chain'_append.mpr ⟨hcB, hcL, hlink⟩

theorem Sep_mk_mk (k1 h1 k2 h2 : Nat) (v1 v2 : V) (hle : h1 ≤ k2)
    (hv : h1 = k2 → v1 ≠ v2) : Sep (⟨k1, h1, v1⟩ : Node V) ⟨k2, h2, v2⟩ := ⟨hle, hv⟩

theorem Sep_mk_left (k1 h1 : Nat) (v1 : V) (b : Node V) (hle : h1 ≤ b.key)
    (hv : h1 = b.key → v1 ≠ b.value) : Sep (⟨k1, h1, v1⟩ : Node V) b := ⟨hle, hv⟩

theorem Sep_mk_right (a : Node V) (k2 h2 : Nat) (v2 : V) (hle : a.high ≤ k2)
    (hv : a.high = k2 → a.value ≠ v2) : Sep a (⟨k2, h2, v2⟩ : Node V) := ⟨hle, hv⟩

/-- Insert preserves the structural invariant of the stored node
sequence. -/
theorem Inv_Insert (m : Imap V) (key : Interval) (value : V)
    (hInv : Inv m.nodes) : Inv (m.Insert key value).nodes := by
  by_cases hlh : key.Low < key.High
  case neg =>
    have hE : key.Empty = true := by
      unfold Interval.Empty
      simp only [decide_eq_true_eq]
      omega
    rw [Insert_empty m key value hE]
    exact hInv
  case pos =>
  have hsplit : m.nodes =
      (m.nodes.takeWhile fun n => n.high < key.Low) ++
      (m.nodes.dropWhile fun n => n.high < key.Low) :=
    (List.takeWhile_append_dropWhile _ m.nodes).symm
  have hB : ∀ n ∈ (m.nodes.takeWhile fun n => n.high < key.Low), n.high < key.Low := by
    intro n hn
    simpa using List.mem_takeWhile_imp hn
  have hBlast : ∀ a ∈ (m.nodes.takeWhile fun n => n.high < key.Low).getLast?, a.high < key.Low := by
    intro a ha
    exact hB a (List.mem_of_mem_getLast? ha)
  obtain ⟨hWF0, hChain0⟩ := hInv
  have hWFB : ∀ n ∈ (m.nodes.takeWhile fun n => n.high < key.Low), n.key < n.high := by
    intro n hn
    exact hWF0 n (by rw [hsplit]; exact List.mem_append_left _ hn)
  rcases hR : m.nodes.dropWhile (fun n => n.high < key.Low) with _ | ⟨p, t⟩
  · rw [Insert_E1 m key value hlh hR]
    have hChainB : List.Chain' Sep (m.nodes.takeWhile fun n => n.high < key.Low) := by
      have h0 := hChain0
      rw [hsplit, hR, List.append_nil] at h0
      exact h0
    refine inv_build _ _ hWFB hChainB ?_ ?_ ?_
    · intro q hq
      rcases List.mem_singleton.mp hq with rfl
      exact (by omega : key.Low < key.High)
    · simp
    · intro a ha b hb
      rcases Option.mem_some_iff.mp hb with rfl
      have := hBlast a ha
      exact Sep_mk_right a key.Low key.High value (by omega) (fun h => absurd h (by omega))
  · have hple : key.Low ≤ p.high := by
      have := dropWhile_head_false (fun n => n.high < key.Low) m.nodes p t hR
      simpa using this
    have hm : m.nodes = (m.nodes.takeWhile fun n => n.high < key.Low) ++ p :: t := by
      conv_lhs => rw [hsplit, hR]
    have hWF : ∀ n ∈ (m.nodes.takeWhile fun n => n.high < key.Low) ++ p :: t, n.key < n.high := by
      rw [← hm]; exact hWF0
    have hChain : List.Chain' Sep ((m.nodes.takeWhile fun n => n.high < key.Low) ++ p :: t) := by
      rw [← hm]; exact hChain0
    have hChainB : List.Chain' Sep (m.nodes.takeWhile fun n => n.high < key.Low) :=
      (List.chain'_append.mp hChain).1
    have hlinkP : ∀ a ∈ (m.nodes.takeWhile fun n => n.high < key.Low).getLast?, Sep a p := by
      intro a ha
      exact (List.chain'_append.mp hChain).2.2 a ha p rfl
    have hWFR : ∀ n ∈ p :: t, n.key < n.high := fun n hn =>
      hWF n (List.mem_append_right _ hn)
    have hWFt : ∀ n ∈ t, n.key < n.high := fun n hn => hWFR n (List.mem_cons_of_mem p hn)
    have hChainR : List.Chain' Sep (p :: t) := (List.chain'_append.mp hChain).2.1
    have hChaint : List.Chain' Sep t := (List.chain'_cons'.mp hChainR).2
    have hsepPt : ∀ y ∈ t.head?, Sep p y := (List.chain'_cons'.mp hChainR).1
    have hpwf : p.key < p.high := hWFR p (List.mem_cons_self p t)
    have htkey : ∀ n ∈ t, p.high ≤ n.key := inv_head_le hWFR hChainR
    have hLB : ∀ n ∈ t, key.Low ≤ n.key := fun n hn => Nat.le_trans hple (htkey n hn)
    have hloop := insertLoop_eq_loopRem key.Low key.High value t hLB
    have hWFlr := loopRem_WF key.High t hWFt
    have hkeylr := loopRem_key_ge key.High t hWFt hChaint
    have hChainlr := loopRem_chain key.High t hChaint
    -- link from the unchanged prefix to a node keeping the key of p
    have hlinkPk : ∀ (H2 : Nat) (v2 : V), v2 = p.value →
        ∀ a ∈ (m.nodes.takeWhile fun n => n.high < key.Low).getLast?,
        Sep a (⟨p.key, H2, v2⟩ : Node V) := by
      intro H2 v2 hv2 a ha
      have hs := hlinkP a ha
      exact Sep_mk_right a p.key H2 v2 hs.1 (fun h => by rw [hv2]; exact hs.2 h)
    -- link from the unchanged prefix to a node starting at the inserted low
    have hlinkLow : ∀ (H2 : Nat) (v2 : V),
        ∀ a ∈ (m.nodes.takeWhile fun n => n.high < key.Low).getLast?,
        Sep a (⟨key.Low, H2, v2⟩ : Node V) := by
      intro H2 v2 a ha
      have := hBlast a ha
      exact Sep_mk_right a key.Low H2 v2 (by omega) (fun h => absurd h (by omega))
    by_cases h1 : p.key < key.High
    · by_cases h2 : p.key < key.Low
      · by_cases h3 : key.High < p.high
        · by_cases h4 : p.value = value
          · rw [Insert_E2 m key value p t hlh hR h1 h2 h3 h4]
            exact ⟨hWF0, hChain0⟩
          · rw [Insert_E3 m key value p t hlh hR h1 h2 h3 h4, List.append_assoc]
            simp only [List.cons_append, List.nil_append]
            refine inv_build _ _ hWFB hChainB ?_ ?_ ?_
            · intro q hq
              simp only [List.mem_cons] at hq
              rcases hq with rfl | rfl | rfl | h
              · exact (by omega : p.key < key.Low)
              · exact (by omega : key.Low < key.High)
              · exact (by omega : key.High < p.high)
              · exact hWFt q h
            · refine List.chain'_cons.mpr ⟨Sep_mk_mk _ _ _ _ _ _ (Nat.le_refl _)
                (fun _ h => h4 h), ?_⟩
              refine List.chain'_cons.mpr ⟨Sep_mk_mk _ _ _ _ _ _ (Nat.le_refl _)
                (fun _ h => h4 h.symm), ?_⟩
              refine List.chain'_cons'.mpr ⟨?_, hChaint⟩
              intro y hy
              have hs := hsepPt y hy
              exact Sep_mk_left _ _ _ y hs.1 (fun h => hs.2 h)
            · intro a ha b hb
              rcases Option.mem_some_iff.mp hb with rfl
              exact hlinkPk key.Low p.value rfl a ha
        · have hph : p.high ≤ key.High := Nat.not_lt.mp h3
          -- separation of the loop remainder from a node ending at key.High
          -- with the inserted value, when the head merge test failed
          rcases hlr : loopRem key.High t with _ | ⟨n, rem2⟩ <;> rw [hlr] at hloop
          · by_cases h4 : p.value = value
            · rw [Insert_E4c m key value p t hlh hR h1 h2 h3 hloop h4]
              refine inv_build _ _ hWFB hChainB ?_ ?_ ?_
              · intro q hq
                rcases List.mem_singleton.mp hq with rfl
                exact (by omega : p.key < key.High)
              · simp
              · intro a ha b hb
                rcases Option.mem_some_iff.mp hb with rfl
                exact hlinkPk key.High value h4.symm a ha
            · rw [Insert_E4f m key value p t hlh hR h1 h2 h3 hloop h4]
              refine inv_build _ _ hWFB hChainB ?_ ?_ ?_
              · intro q hq
                simp only [List.mem_cons, List.not_mem_nil, or_false] at hq
                rcases hq with rfl | rfl
                · exact (by omega : p.key < key.Low)
                · exact (by omega : key.Low < key.High)
              · refine List.chain'_cons.mpr ⟨Sep_mk_mk _ _ _ _ _ _ (Nat.le_refl _)
                  (fun _ h => h4 h), ?_⟩
                simp
              · intro a ha b hb
                rcases Option.mem_some_iff.mp hb with rfl
                exact hlinkPk key.Low p.value rfl a ha
          · have hnk : key.High ≤ n.key := hkeylr n (by rw [hlr]; exact List.mem_cons_self n rem2)
            have hnwf : n.key < n.high := hWFlr n (by rw [hlr]; exact List.mem_cons_self n rem2)
            have hChain2 : List.Chain' Sep (n :: rem2) := by rw [← hlr]; exact hChainlr
            have hWF2 : ∀ q ∈ n :: rem2, q.key < q.high := by rw [← hlr]; exact hWFlr
            have hsepN : ∀ y ∈ rem2.head?, Sep n y := (List.chain'_cons'.mp hChain2).1
            have hChainrem2 : List.Chain' Sep rem2 := (List.chain'_cons'.mp hChain2).2
            by_cases h4 : p.value = value
            · by_cases h5 : n.key = key.High ∧ n.value = value
              · rw [Insert_E4a m key value p n t rem2 hlh hR h1 h2 h3 hloop h4 h5,
                    List.append_assoc]
                simp only [List.cons_append, List.nil_append]
                refine inv_build _ _ hWFB hChainB ?_ ?_ ?_
                · intro q hq
                  simp only [List.mem_cons] at hq
                  rcases hq with rfl | h
                  · exact (by omega : p.key < n.high)
                  · exact hWF2 q (List.mem_cons_of_mem n h)
                · refine List.chain'_cons'.mpr ⟨?_, hChainrem2⟩
                  intro y hy
                  have hs := hsepN y hy
                  exact Sep_mk_left _ _ _ y hs.1 (fun h => by rw [← h5.2]; exact hs.2 h)
                · intro a ha b hb
                  rcases Option.mem_some_iff.mp hb with rfl
                  exact hlinkPk n.high value h4.symm a ha
              · rw [Insert_E4b m key value p n t rem2 hlh hR h1 h2 h3 hloop h4 h5,
                    List.append_assoc]
                simp only [List.cons_append, List.nil_append]
                refine inv_build _ _ hWFB hChainB ?_ ?_ ?_
                · intro q hq
                  simp only [List.mem_cons] at hq
                  rcases hq with rfl | h
                  · exact (by omega : p.key < key.High)
                  · exact hWF2 q (List.mem_cons.mpr h)
                · refine List.chain'_cons.mpr ⟨?_, hChain2⟩
                  refine Sep_mk_left _ _ _ n hnk ?_
                  intro h hv
                  exact h5 ⟨h.symm, hv.symm⟩
                · intro a ha b hb
                  rcases Option.mem_some_iff.mp hb with rfl
                  exact hlinkPk key.High value h4.symm a ha
            · by_cases h5 : n.key = key.High ∧ n.value = value
              · rw [Insert_E4d m key value p n t rem2 hlh hR h1 h2 h3 hloop h4 h5,
                    List.append_assoc]
                simp only [List.cons_append, List.nil_append]
                refine inv_build _ _ hWFB hChainB ?_ ?_ ?_
                · intro q hq
                  simp only [List.mem_cons] at hq
                  rcases hq with rfl | rfl | h
                  · exact (by omega : p.key < key.Low)
                  · exact (by omega : key.Low < n.high)
                  · exact hWF2 q (List.mem_cons_of_mem n h)
                · refine List.chain'_cons.mpr ⟨Sep_mk_mk _ _ _ _ _ _ (Nat.le_refl _)
                    (fun _ h => h4 h), ?_⟩
                  refine List.chain'_cons'.mpr ⟨?_, hChainrem2⟩
                  intro y hy
                  have hs := hsepN y hy
                  exact Sep_mk_left _ _ _ y hs.1 (fun h => by rw [← h5.2]; exact hs.2 h)
                · intro a ha b hb
                  rcases Option.mem_some_iff.mp hb with rfl
                  exact hlinkPk key.Low p.value rfl a ha
              · rw [Insert_E4e m key value p n t rem2 hlh hR h1 h2 h3 hloop h4 h5,
                    List.append_assoc]
                simp only [List.cons_append, List.nil_append]
                refine inv_build _ _ hWFB hChainB ?_ ?_ ?_
                · intro q hq
                  simp only [List.mem_cons] at hq
                  rcases hq with rfl | rfl | h
                  · exact (by omega : p.key < key.Low)
                  · exact (by omega : key.Low < key.High)
                  · exact hWF2 q (List.mem_cons.mpr h)
                · refine List.chain'_cons.mpr ⟨Sep_mk_mk _ _ _ _ _ _ (Nat.le_refl _)
                    (fun _ h => h4 h), ?_⟩
                  refine List.chain'_cons.mpr ⟨?_, hChain2⟩
                  refine Sep_mk_left _ _ _ n hnk ?_
                  intro h hv
                  exact h5 ⟨h.symm, hv.symm⟩
                · intro a ha b hb
                  rcases Option.mem_some_iff.mp hb with rfl
                  exact hlinkPk key.Low p.value rfl a ha
      · have hpk0 : key.Low ≤ p.key := Nat.not_lt.mp h2
        by_cases h3 : key.High < p.high
        · by_cases h4 : p.value = value
          · rw [Insert_E5a m key value p t hlh hR h1 h2 h3 h4, List.append_assoc]
            simp only [List.cons_append, List.nil_append]
            refine inv_build _ _ hWFB hChainB ?_ ?_ ?_
            · intro q hq
              simp only [List.mem_cons] at hq
              rcases hq with rfl | h
              · exact (by omega : key.Low < p.high)
              · exact hWFt q h
            · refine List.chain'_cons'.mpr ⟨?_, hChaint⟩
              intro y hy
              have hs := hsepPt y hy
              exact Sep_mk_left _ _ _ y hs.1 (fun h => by rw [← h4]; exact hs.2 h)
            · intro a ha b hb
              rcases Option.mem_some_iff.mp hb with rfl
              exact hlinkLow p.high value a ha
          · rw [Insert_E5b m key value p t hlh hR h1 h2 h3 h4, List.append_assoc]
            simp only [List.cons_append, List.nil_append]
            refine inv_build _ _ hWFB hChainB ?_ ?_ ?_
            · intro q hq
              simp only [List.mem_cons] at hq
              rcases hq with rfl | rfl | h
              · exact (by omega : key.Low < key.High)
              · exact (by omega : key.High < p.high)
              · exact hWFt q h
            · refine List.chain'_cons.mpr ⟨Sep_mk_mk _ _ _ _ _ _ (Nat.le_refl _)
                (fun _ hv => h4 hv.symm), ?_⟩
              refine List.chain'_cons'.mpr ⟨?_, hChaint⟩
              intro y hy
              have hs := hsepPt y hy
              exact Sep_mk_left _ _ _ y hs.1 (fun h => hs.2 h)
            · intro a ha b hb
              rcases Option.mem_some_iff.mp hb with rfl
              exact hlinkLow key.High value a ha
        · have hph : p.high ≤ key.High := Nat.not_lt.mp h3
          rcases hlr : loopRem key.High t with _ | ⟨n, rem2⟩ <;> rw [hlr] at hloop
          · rw [Insert_E6c m key value p t hlh hR h1 h2 h3 hloop]
            refine inv_build _ _ hWFB hChainB ?_ ?_ ?_
            · intro q hq
              rcases List.mem_singleton.mp hq with rfl
              exact (by omega : key.Low < key.High)
            · simp
            · intro a ha b hb
              rcases Option.mem_some_iff.mp hb with rfl
              exact hlinkLow key.High value a ha
          · have hnk : key.High ≤ n.key := hkeylr n (by rw [hlr]; exact List.mem_cons_self n rem2)
            have hnwf : n.key < n.high := hWFlr n (by rw [hlr]; exact List.mem_cons_self n rem2)
            have hChain2 : List.Chain' Sep (n :: rem2) := by rw [← hlr]; exact hChainlr
            have hWF2 : ∀ q ∈ n :: rem2, q.key < q.high := by rw [← hlr]; exact hWFlr
            have hsepN : ∀ y ∈ rem2.head?, Sep n y := (List.chain'_cons'.mp hChain2).1
            have hChainrem2 : List.Chain' Sep rem2 := (List.chain'_cons'.mp hChain2).2
            by_cases h5 : n.key = key.High ∧ n.value = value
            · rw [Insert_E6a m key value p n t rem2 hlh hR h1 h2 h3 hloop h5,
                  List.append_assoc]
              simp only [List.cons_append, List.nil_append]
              refine inv_build _ _ hWFB hChainB ?_ ?_ ?_
              · intro q hq
                simp only [List.mem_cons] at hq
                rcases hq with rfl | h
                · exact (by omega : key.Low < n.high)
                · exact hWF2 q (List.mem_cons_of_mem n h)
              · refine List.chain'_cons'.mpr ⟨?_, hChainrem2⟩
                intro y hy
                have hs := hsepN y hy
                exact Sep_mk_left _ _ _ y hs.1 (fun h => by rw [← h5.2]; exact hs.2 h)
              · intro a ha b hb
                rcases Option.mem_some_iff.mp hb with rfl
                exact hlinkLow n.high value a ha
            · rw [Insert_E6b m key value p n t rem2 hlh hR h1 h2 h3 hloop h5,
                  List.append_assoc]
              simp only [List.cons_append, List.nil_append]
              refine inv_build _ _ hWFB hChainB ?_ ?_ ?_
              · intro q hq
                simp only [List.mem_cons] at hq
                rcases hq with rfl | h
                · exact (by omega : key.Low < key.High)
                · exact hWF2 q (List.mem_cons.mpr h)
              · refine List.chain'_cons.mpr ⟨?_, hChain2⟩
                refine Sep_mk_left _ _ _ n hnk ?_
                intro h hv
                exact h5 ⟨h.symm, hv.symm⟩
              · intro a ha b hb
                rcases Option.mem_some_iff.mp hb with rfl
                exact hlinkLow key.High value a ha
    · have hpk1 : key.High ≤ p.key := Nat.not_lt.mp h1
      by_cases h5 : p.key = key.High ∧ p.value = value
      · rw [Insert_E7a m key value p t hlh hR h1 h5, List.append_assoc]
        simp only [List.cons_append, List.nil_append]
        refine inv_build _ _ hWFB hChainB ?_ ?_ ?_
        · intro q hq
          simp only [List.mem_cons] at hq
          rcases hq with rfl | h
          · exact (by omega : key.Low < p.high)
          · exact hWFt q h
        · refine List.chain'_cons'.mpr ⟨?_, hChaint⟩
          intro y hy
          have hs := hsepPt y hy
          exact Sep_mk_left _ _ _ y hs.1 (fun h => by rw [← h5.2]; exact hs.2 h)
        · intro a ha b hb
          rcases Option.mem_some_iff.mp hb with rfl
          exact hlinkLow p.high value a ha
      · rw [Insert_E7b m key value p t hlh hR h1 h5, List.append_assoc]
        simp only [List.cons_append, List.nil_append]
        refine inv_build _ _ hWFB hChainB ?_ ?_ ?_
        · intro q hq
          simp only [List.mem_cons] at hq
          rcases hq with rfl | h
          · exact (by omega : key.Low < key.High)
          · exact hWFR q (List.mem_cons.mpr h)
        · refine List.chain'_cons.mpr ⟨?_, hChainR⟩
          refine Sep_mk_left _ _ _ p hpk1 ?_
          intro h hv
          exact h5 ⟨h.symm, hv.symm⟩
        · intro a ha b hb
          rcases Option.mem_some_iff.mp hb with rfl
          exact hlinkLow key.High value a ha

end imap

namespace imap

variable {V : Type} [DecidableEq V]

theorem Inv_nil : Inv ([] : List (Node V)) := ⟨fun n hn => absurd hn (List.not_mem_nil n), List.chain'_nil⟩

theorem Inv_applyInserts (ops : List (Interval × V)) : Inv (applyInserts ops).nodes := by
  suffices h : ∀ (m : Imap V), Inv m.nodes →
      Inv (ops.foldl (fun m op => m.Insert op.1 op.2) m).nodes by
    exact h (Imap.empty V) Inv_nil
  induction ops with
  | nil => intro m hm; exact hm
  | cons op t ih =>
    intro m hm
    exact ih (m.Insert op.1 op.2) (Inv_Insert m op.1 op.2 hm)

theorem findVal_applyInserts (ops : List (Interval × V)) (x : Nat) :
    findVal (applyInserts ops).nodes x = semVal ops x := by
  suffices h : ∀ (m : Imap V), Inv m.nodes →
      findVal (ops.foldl (fun m op => m.Insert op.1 op.2) m).nodes x =
        ops.foldl (fun acc op => if op.1.Contains x then some op.2 else acc)
          (findVal m.nodes x) by
    exact h (Imap.empty V) Inv_nil
  induction ops with
  | nil => intro m hm; rfl
  | cons op t ih =>
    intro m hm
    have step := findVal_Insert m op.1 op.2 x hm
    calc findVal (List.foldl (fun m op => m.Insert op.1 op.2) (m.Insert op.1 op.2) t).nodes x
        = List.foldl (fun acc op => if op.1.Contains x then some op.2 else acc)
            (findVal (m.Insert op.1 op.2).nodes x) t :=
          ih (m.Insert op.1 op.2) (Inv_Insert m op.1 op.2 hm)
      _ = _ := by rw [step, List.foldl_cons]

theorem semVal_eq_getLast (ops : List (Interval × V)) (x : Nat) :
    semVal ops x = ((ops.filter fun op => op.1.Contains x).getLast?).map Prod.snd := by
  have helim : ∀ (o : Option (Interval × V)),
      o.elim (none : Option V) (fun q => some q.2) = o.map Prod.snd := by
    intro o; cases o <;> rfl
  suffices h : ∀ (acc : Option V),
      ops.foldl (fun acc op => if op.1.Contains x then some op.2 else acc) acc =
        ((ops.filter fun op => op.1.Contains x).getLast?).elim acc (fun q => some q.2) by
    rw [semVal, h none, helim]
  induction ops with
  | nil => intro acc; rfl
  | cons op t ih =>
    intro acc
    rw [List.foldl_cons, List.filter_cons]
    by_cases hc : op.1.Contains x = true
    · rw [if_pos hc, hc, if_pos rfl, ih]
      rcases hf : (t.filter fun op => op.1.Contains x) with _ | ⟨q, l⟩
      · rw [hf]
        simp
      · rw [hf, List.getLast?_cons_cons,
            List.getLast?_eq_getLast (q :: l) (by simp)]
        rfl
    · rw [if_neg hc, eq_false_of_ne_true hc, ih]
      simp only [Bool.false_eq_true, if_false]

theorem semVal_isSome (ops : List (Interval × V)) (x : Nat) :
    (semVal ops x).isSome = true ↔ ∃ op ∈ ops, op.1.Contains x = true := by
  rw [semVal_eq_getLast]
  constructor
  · intro h
    rcases ho : (ops.filter fun op => op.1.Contains x).getLast? with _ | q
    · rw [ho] at h; cases h
    · have hq : q ∈ ops.filter fun op => op.1.Contains x := List.mem_of_getLast?_eq_some ho
      have := List.mem_filter.mp hq
      exact ⟨q, this.1, this.2⟩
  · intro ⟨op, hop, hc⟩
    have : op ∈ ops.filter fun op => op.1.Contains x := List.mem_filter.mpr ⟨hop, hc⟩
    rcases ho : (ops.filter fun op => op.1.Contains x).getLast? with _ | q
    · rw [List.getLast?_eq_none_iff] at ho
      rw [ho] at this
      cases this
    · rw [ho]
      rfl

theorem findVal_lt_keys (l : List (Node V)) (y : Nat)
    (h : ∀ n ∈ l, y < n.key) : findVal l y = none := by
  induction l with
  | nil => rfl
  | cons a t ih =>
    have ha := h a (List.mem_cons_self a t)
    by_cases hy : y < a.high
    · rw [findVal_cons_none a t y hy (by omega)]
    · rw [findVal_cons_skip a t y hy]
      exact ih (fun n hn => h n (List.mem_cons_of_mem a hn))

/-- Inside a stored node, Find reports that node's value. -/
theorem findVal_covers (l : List (Node V)) (node : Node V) (y : Nat)
    (hInv : Inv l) (hmem : node ∈ l) (h1 : node.key ≤ y) (h2 : y < node.high) :
    findVal l y = some node.value := by
  induction l with
  | nil => cases hmem
  | cons a t ih =>
    obtain ⟨hWF, hChain⟩ := hInv
    rcases List.mem_cons.mp hmem with rfl | hmem2
    · exact findVal_cons_some node t y h2 h1
    · have hle : a.high ≤ node.key := inv_head_le hWF hChain node hmem2
      rw [findVal_cons_skip a t y (by omega)]
      exact ih ⟨fun n hn => hWF n (List.mem_cons_of_mem a hn),
        (List.chain'_cons'.mp hChain).2⟩ hmem2

/-- Just below a stored node, Find does not report that node's value. -/
theorem findVal_below (l : List (Node V)) (node : Node V)
    (hInv : Inv l) (hmem : node ∈ l) (h0 : node.key ≠ 0) :
    findVal l (node.key - 1) ≠ some node.value := by
  induction l with
  | nil => cases hmem
  | cons a t ih =>
    obtain ⟨hWF, hChain⟩ := hInv
    have haWF : a.key < a.high := hWF a (List.mem_cons_self a t)
    rcases List.mem_cons.mp hmem with rfl | hmem2
    · rw [findVal_cons_none node t (node.key - 1) (by omega) (by omega)]
      simp
    · have hnodeWF : node.key < node.high := hWF node (List.mem_cons_of_mem a hmem2)
      have hle : a.high ≤ node.key := inv_head_le hWF hChain node hmem2
      by_cases hy : node.key - 1 < a.high
      · -- node abuts a, which must be immediately before it
        have habut : a.high = node.key := by omega
        rcases t with _ | ⟨b, t2⟩
        · cases hmem2
        · have hsepab : Sep a b := (List.chain'_cons.mp hChain).1
          have hbWF : b.key < b.high := hWF b (List.mem_cons_of_mem a (List.mem_cons_self b t2))
          rcases List.mem_cons.mp hmem2 with rfl | hmem3
          · by_cases hk : a.key ≤ node.key - 1
            · rw [findVal_cons_some a (node :: t2) (node.key - 1) hy hk]
              intro hv
              exact hsepab.2 habut (Option.some_inj.mp hv)
            · rw [findVal_cons_none a (node :: t2) (node.key - 1) hy hk]
              simp
          · have hble : b.high ≤ node.key := inv_head_le
              (fun n hn => hWF n (List.mem_cons_of_mem a hn))
              (List.chain'_cons.mp hChain).2 node hmem3
            have hab := hsepab.1
            omega
      · rw [findVal_cons_skip a t (node.key - 1) hy]
        exact ih ⟨fun n hn => hWF n (List.mem_cons_of_mem a hn),
          (List.chain'_cons'.mp hChain).2⟩ hmem2

/-- At a stored node's high end, Find does not report that node's value. -/
theorem findVal_at_high (l : List (Node V)) (node : Node V)
    (hInv : Inv l) (hmem : node ∈ l) :
    findVal l node.high ≠ some node.value := by
  induction l with
  | nil => cases hmem
  | cons a t ih =>
    obtain ⟨hWF, hChain⟩ := hInv
    have haWF : a.key < a.high := hWF a (List.mem_cons_self a t)
    rcases List.mem_cons.mp hmem with rfl | hmem2
    · rw [findVal_cons_skip node t node.high (by omega)]
      rcases t with _ | ⟨b, t2⟩
      · simp [findVal_nil]
      · have hsepab : Sep node b := (List.chain'_cons.mp hChain).1
        have hbWF : b.key < b.high := hWF b (List.mem_cons_of_mem node (List.mem_cons_self b t2))
        have hs1 := hsepab.1
        by_cases hbh : node.high < b.high
        · by_cases hbk : b.key ≤ node.high
          · rw [findVal_cons_some b t2 node.high hbh hbk]
            intro hv
            exact hsepab.2 (by omega) (Option.some_inj.mp hv).symm
          · rw [findVal_cons_none b t2 node.high hbh hbk]
            simp
        · omega
    · have hnodeWF : node.key < node.high := hWF node (List.mem_cons_of_mem a hmem2)
      have hle : a.high ≤ node.key := inv_head_le hWF hChain node hmem2
      rw [findVal_cons_skip a t node.high (by omega)]
      exact ih ⟨fun n hn => hWF n (List.mem_cons_of_mem a hn),
        (List.chain'_cons'.mp hChain).2⟩ hmem2

end imap

namespace imap

variable {V : Type} [DecidableEq V]

/-- Two invariant-satisfying node sequences with the same Find values at
every address are equal: the coalesced representation is canonical. -/
theorem findVal_canonical (l1 : List (Node V)) :
    ∀ (l2 : List (Node V)), Inv l1 → Inv l2 →
    (∀ x, findVal l1 x = findVal l2 x) → l1 = l2 := by
  induction l1 with
  | nil =>
    intro l2 _ hI2 h
    rcases l2 with _ | ⟨b, t2⟩
    · rfl
    · exfalso
      have hbWF : b.key < b.high := hI2.1 b (List.mem_cons_self b t2)
      have := h b.key
      rw [findVal_cons_some b t2 b.key hbWF (Nat.le_refl _)] at this
      cases this
  | cons a t1 ih =>
    intro l2 hI1 hI2 h
    rcases l2 with _ | ⟨b, t2⟩
    · exfalso
      have haWF : a.key < a.high := hI1.1 a (List.mem_cons_self a t1)
      have := h a.key
      rw [findVal_cons_some a t1 a.key haWF (Nat.le_refl _)] at this
      cases this
    · have haWF : a.key < a.high := hI1.1 a (List.mem_cons_self a t1)
      have hbWF : b.key < b.high := hI2.1 b (List.mem_cons_self b t2)
      have ht1k : ∀ n ∈ t1, a.high ≤ n.key := inv_head_le hI1.1 hI1.2
      have ht2k : ∀ n ∈ t2, b.high ≤ n.key := inv_head_le hI2.1 hI2.2
      have hI1t : Inv t1 := ⟨fun n hn => hI1.1 n (List.mem_cons_of_mem a hn),
        (List.chain'_cons'.mp hI1.2).2⟩
      have hI2t : Inv t2 := ⟨fun n hn => hI2.1 n (List.mem_cons_of_mem b hn),
        (List.chain'_cons'.mp hI2.2).2⟩
      have hkey : a.key = b.key := by
        by_contra hne
        rcases Nat.lt_or_ge a.key b.key with hlt | hge
        · have h1 := h a.key
          rw [findVal_cons_some a t1 a.key haWF (Nat.le_refl _)] at h1
          have h2 : findVal (b :: t2) a.key = none := by
            apply findVal_lt_keys
            intro n hn
            rcases List.mem_cons.mp hn with rfl | hn2
            · exact hlt
            · exact Nat.lt_of_lt_of_le hlt (Nat.le_trans (Nat.le_of_lt hbWF) (ht2k n hn2))
          rw [h2] at h1
          cases h1
        · have hlt : b.key < a.key := by omega
          have h1 := h b.key
          rw [findVal_cons_some b t2 b.key hbWF (Nat.le_refl _)] at h1
          have h2 : findVal (a :: t1) b.key = none := by
            apply findVal_lt_keys
            intro n hn
            rcases List.mem_cons.mp hn with rfl | hn2
            · exact hlt
            · exact Nat.lt_of_lt_of_le hlt (Nat.le_trans (Nat.le_of_lt haWF) (ht1k n hn2))
          rw [h2] at h1
          cases h1
      have hval : a.value = b.value := by
        have h1 := h a.key
        rw [findVal_cons_some a t1 a.key haWF (Nat.le_refl _),
            findVal_cons_some b t2 a.key (by omega) (by omega)] at h1
        exact Option.some_inj.mp h1
      have hhigh : a.high = b.high := by
        by_contra hne
        rcases Nat.lt_or_ge a.high b.high with hlt | hge
        · have h1 := h a.high
          rw [findVal_cons_some b t2 a.high hlt (by omega)] at h1
          have h2 := findVal_at_high (a :: t1) a hI1 (List.mem_cons_self a t1)
          rw [h1, ← hval] at h2
          exact h2 rfl
        · have hlt : b.high < a.high := by omega
          have h1 := h b.high
          rw [findVal_cons_some a t1 b.high hlt (by omega)] at h1
          have h2 := findVal_at_high (b :: t2) b hI2 (List.mem_cons_self b t2)
          rw [← h1, hval] at h2
          exact h2 rfl
      have hab : a = b := by
        rcases a with ⟨ak, ah, av⟩
        rcases b with ⟨bk, bh, bv⟩
        simp only [Node.mk.injEq]
        exact ⟨hkey, hhigh, hval⟩
      subst hab
      have htail : t1 = t2 := by
        apply ih t2 hI1t hI2t
        intro x
        rcases Nat.lt_or_ge x a.high with hx | hx
        · rw [findVal_lt_keys t1 x (fun n hn => Nat.lt_of_lt_of_le hx (ht1k n hn)),
              findVal_lt_keys t2 x (fun n hn => Nat.lt_of_lt_of_le hx (ht2k n hn))]
        · have h1 := h x
          rw [findVal_cons_skip a t1 x (by omega),
              findVal_cons_skip a t2 x (by omega)] at h1
          exact h1
      rw [htail]

end imap

namespace imap

variable {V : Type} [DecidableEq V]

theorem Find_map_snd (m : Imap V) (x : Nat) :
    (m.Find x).map Prod.snd = findVal m.nodes x := by
  rw [Find_eq_lookup]
  unfold findVal
  cases lookup m.nodes x <;> rfl

theorem Find_some_node (m : Imap V) (x : Nat) (I : Interval) (v : V)
    (h : m.Find x = some (I, v)) :
    ∃ node ∈ m.nodes, node.interval = I ∧ node.value = v ∧ node.key ≤ x ∧ x < node.high := by
  rw [Find_eq_lookup] at h
  rcases hl : lookup m.nodes x with _ | node
  · rw [hl] at h; cases h
  · rw [hl] at h
    have hmem := lookup_mem m.nodes x node hl
    have h2 : node.interval = I ∧ node.value = v := by
      have h3 : ((node.interval, node.value) : Interval × V) = (I, v) := by simpa using h
      exact ⟨congrArg Prod.fst h3, congrArg Prod.snd h3⟩
    exact ⟨node, hmem.1, h2.1, h2.2, hmem.2⟩

theorem inv_pairwise (l : List (Node V)) (hInv : Inv l) :
    l.Pairwise fun a b => a.high ≤ b.key := by
  induction l with
  | nil => exact List.Pairwise.nil
  | cons a t ih =>
    refine List.pairwise_cons.mpr ⟨inv_head_le hInv.1 hInv.2, ?_⟩
    exact ih ⟨fun n hn => hInv.1 n (List.mem_cons_of_mem a hn),
      (List.chain'_cons'.mp hInv.2).2⟩

theorem Iter_zero (m : Imap V) (hInv : Inv m.nodes) : m.Iter 0 = m.nodes := by
  unfold Imap.Iter
  rcases hn : m.nodes with _ | ⟨a, t⟩
  · rfl
  · have haWF : a.key < a.high := hInv.1 a (by rw [hn]; exact List.mem_cons_self a t)
    rw [List.dropWhile_cons, if_neg (by simp; omega)]

/-- C5: after every sequence of Insert operations on an initially empty
imap, the nodes yielded in order by Iter have strictly increasing lows,
are pairwise non-overlapping, and no two abutting nodes carry equal
values. -/
theorem C5_insert_invariant (ops : List (Interval × V)) :
    ((applyInserts ops).Iter 0).Pairwise (fun a b => a.key < b.key) ∧
    ((applyInserts ops).Iter 0).Pairwise (fun a b => a.high ≤ b.key) ∧
    ((applyInserts ops).Iter 0).Chain' fun a b => a.high = b.key → a.value ≠ b.value := by
  have hInv := Inv_applyInserts ops
  rw [Iter_zero _ hInv]
  have hpw := inv_pairwise _ hInv
  refine ⟨?_, hpw, ?_⟩
  · refine hpw.imp_of_mem ?_
    intro a b ha hb hle
    have := hInv.1 a ha
    omega
  · exact List.Chain'.imp (fun a b hs => hs.2) hInv.2

/-- C1: for every insert sequence on an initially empty imap and every
address, Find returns a value exactly when some insert covered the address
(and then the value of the last covering insert), and the returned
interval is the maximal contiguous run of addresses with that same Find
value around the address. -/
theorem C1_find_semantics (ops : List (Interval × V)) (x : Nat) :
    (((applyInserts ops).Find x).map Prod.snd =
        ((ops.filter fun op => op.1.Contains x).getLast?).map Prod.snd) ∧
    (((applyInserts ops).Find x).isSome = true ↔ ∃ op ∈ ops, op.1.Contains x = true) ∧
    (∀ I v, (applyInserts ops).Find x = some (I, v) →
      I.Contains x = true ∧
      (∀ y, I.Contains y = true → ((applyInserts ops).Find y).map Prod.snd = some v) ∧
      (I.Low = 0 ∨ ((applyInserts ops).Find (I.Low - 1)).map Prod.snd ≠ some v) ∧
      ((applyInserts ops).Find I.High).map Prod.snd ≠ some v) := by
  have hInv := Inv_applyInserts ops
  have hsem : ∀ y, ((applyInserts ops).Find y).map Prod.snd = semVal ops y := by
    intro y
    rw [Find_map_snd, findVal_applyInserts]
  refine ⟨by rw [hsem, semVal_eq_getLast], ?_, ?_⟩
  · have : ((applyInserts ops).Find x).isSome = (semVal ops x).isSome := by
      rw [← hsem x]
      cases (applyInserts ops).Find x <;> rfl
    rw [this]
    exact semVal_isSome ops x
  · intro I v hf
    obtain ⟨node, hmem, hI, hv, hk, hh⟩ := Find_some_node _ _ _ _ hf
    have hIC : I = ⟨node.key, node.high⟩ := hI.symm
    subst hIC
    subst hv
    refine ⟨Contains_true _ _ hk hh, ?_, ?_, ?_⟩
    · intro y hy
      have hy2 : node.key ≤ y ∧ y < node.high := by
        unfold Interval.Contains at hy
        simpa using hy
      rw [Find_map_snd]
      exact findVal_covers _ node y hInv hmem hy2.1 hy2.2
    · by_cases h0 : node.key = 0
      · exact Or.inl h0
      · refine Or.inr ?_
        rw [Find_map_snd]
        exact findVal_below _ node hInv hmem h0
    · rw [Find_map_snd]
      exact findVal_at_high _ node hInv hmem

/-- Witness for C1 at a concrete insert sequence. -/
theorem C1_find_semantics_witness :
    ((applyInserts [((⟨0, 4⟩ : Interval), (3 : Nat))]).Find 2).map Prod.snd =
      ((([((⟨0, 4⟩ : Interval), (3 : Nat))].filter
          fun op => op.1.Contains 2).getLast?).map Prod.snd) ∧
    (applyInserts [((⟨0, 4⟩ : Interval), (3 : Nat))]).Find 2 = some (⟨0, 4⟩, 3) :=
  ⟨(C1_find_semantics [((⟨0, 4⟩ : Interval), (3 : Nat))] 2).1, by decide⟩

/-- C10: inserting the same interval and value twice yields a map whose
Find result at every address equals that after the first insert alone. -/
theorem C10_insert_idempotent (m : Imap V) (key : Interval) (value : V)
    (hInv : Inv m.nodes) (x : Nat) :
    ((m.Insert key value).Insert key value).Find x = (m.Insert key value).Find x := by
  have h1 : Inv (m.Insert key value).nodes := Inv_Insert m key value hInv
  have h2 : Inv ((m.Insert key value).Insert key value).nodes :=
    Inv_Insert _ key value h1
  have heq : ((m.Insert key value).Insert key value).nodes = (m.Insert key value).nodes := by
    apply findVal_canonical _ _ h2 h1
    intro y
    rw [findVal_Insert _ key value y h1, findVal_Insert m key value y hInv]
    by_cases hc : key.Contains y = true
    · rw [hc]
      simp
    · rw [eq_false_of_ne_true hc]
      simp
  unfold Imap.Find
  rw [heq]

/-- Witness for C10 at a concrete map and insert. -/
theorem C10_insert_idempotent_witness :
    (((Imap.mk [⟨0, 2, 5⟩] : Imap Nat).Insert ⟨1, 3⟩ 7).Insert ⟨1, 3⟩ 7).Find 2 =
      ((Imap.mk [⟨0, 2, 5⟩] : Imap Nat).Insert ⟨1, 3⟩ 7).Find 2 :=
  C10_insert_idempotent (Imap.mk [⟨0, 2, 5⟩]) ⟨1, 3⟩ 7 ⟨by decide, List.chain'_singleton _⟩ 2

end imap

/-- C2: the claim says the 32-bit addend of a RELA entry in a 32-bit-class
ELF file is sign-extended into the decoded `Reloc.Addend`, so a stored
addend with its top bit set yields a negative `Addend`. The decoder
converts the addend with `int64(add)` where `add` is `uint32`, which
zero-extends: decoding one little-endian RELA/32 entry whose addend bytes
are `fc ff ff ff` (the two's-complement encoding of `-4`, as the
library's own sign-extending `Layout.Int32` confirms on the same bytes)
yields `Addend = 4294967292`, which is not negative. -/
theorem C2_rela32_addend_zero_extended :
    obj.elfReadRela32 (arch.Layout.mk 0 4) (obj.elfSymTab.mk 0 5) 2
        [0x10, 0, 0, 0, 0x01, 0x01, 0, 0, 0xfc, 0xff, 0xff, 0xff]
      = [obj.Reloc.mk 16 (obj.makeRelocType 2 1) 0 (4294967292 : Int)] ∧
    arch.Layout.Int32 (arch.Layout.mk 0 4) [0xfc, 0xff, 0xff, 0xff] = -4 ∧
    ¬ (4294967292 : Int) < 0 := by decide

/-- Every addend `elfReadRela32` decodes is non-negative, so no RELA/32
entry whatsoever decodes to the negative addend sign extension would
produce for a top-bit-set stored value. -/
theorem elfReadRela32_addend_nonneg (l : arch.Layout) (symTab : obj.elfSymTab)
    (relClass : Nat) (b : List Nat) :
    ∀ r ∈ obj.elfReadRela32 l symTab relClass b, 0 ≤ r.Addend := by
  induction b using obj.elfReadRela32.induct l symTab relClass with
  | case1 b0 b1 b2 b3 b4 b5 b6 b7 b8 b9 b10 b11 rest ih =>
    intro r hr
    rw [obj.elfReadRela32] at hr
    rcases List.mem_cons.mp hr with rfl | hr
    · exact Int.ofNat_nonneg _
    · exact ih r hr
  | case2 b h =>
    intro r hr
    rw [obj.elfReadRela32.eq_def] at hr
    split at hr
    · next b0 b1 b2 b3 b4 b5 b6 b7 b8 b9 b10 b11 rest =>
      exact absurd rfl (h b0 b1 b2 b3 b4 b5 b6 b7 b8 b9 b10 b11 rest)
    · simp at hr

/-- C3: the claim says that in every group of data-bearing symbols sharing
one (section, value), the group's extent is assigned to every zero-sized
member whenever any member has size 0. The group scan tests
`s1.Size == 0` (the group head) instead of the scanned member, so a group
whose head has non-zero size is skipped entirely: with a section of
address 0 and size 100, two data symbols at value 0 with sizes 5 and 0
come out unchanged — the zero-sized second member keeps size 0 and is not
flagged synthesized, where the claim requires it to receive the extent
100 (section end minus value). With the same symbols in the opposite
order (zero-sized head), the extent 100 is assigned, as the claim
demands for both orders. -/
theorem C3_group_size_skipped :
    obj.SynthesizeSizes
        [obj.Sym.mk (some (obj.Section.mk 0 0 100)) 0 5 obj.SymKind.SymData false,
         obj.Sym.mk (some (obj.Section.mk 0 0 100)) 0 0 obj.SymKind.SymData false]
      = [obj.Sym.mk (some (obj.Section.mk 0 0 100)) 0 5 obj.SymKind.SymData false,
         obj.Sym.mk (some (obj.Section.mk 0 0 100)) 0 0 obj.SymKind.SymData false] ∧
    obj.SynthesizeSizes
        [obj.Sym.mk (some (obj.Section.mk 0 0 100)) 0 0 obj.SymKind.SymData false,
         obj.Sym.mk (some (obj.Section.mk 0 0 100)) 0 5 obj.SymKind.SymData false]
      = [obj.Sym.mk (some (obj.Section.mk 0 0 100)) 0 100 obj.SymKind.SymData true,
         obj.Sym.mk (some (obj.Section.mk 0 0 100)) 0 5 obj.SymKind.SymData false] := by
  decide

/-- C4: the claim says `ZeroInitialize()` is true iff the section's ELF
type is NOBITS. The predicate actually tests the read-only bit, so it
coincides with `ReadOnly()` on every flag word: for a NOBITS section with
WRITE and ALLOC (an ordinary `.bss`) it is false although the type is
NOBITS, and for a writable-flag-free PROGBITS section (type 1, ALLOC
only) it is true although the type is not NOBITS. -/
theorem C4_zeroInitialize_tests_readOnly :
    (obj.openElfFlags false (obj.ElfSect.mk obj.SHT_NOBITS 3 0 0)).ZeroInitialize = false ∧
    (obj.openElfFlags false (obj.ElfSect.mk 1 2 0 0)).ZeroInitialize = true ∧
    ∀ s : obj.SectionFlags, s.ZeroInitialize = s.ReadOnly :=
  ⟨by decide, by decide, fun _ => rfl⟩

/-- The `mapped` bit of the flag word `openElf` assigns is set exactly
for ALLOC sections of non-relocatable files, independent of the other
two bits. -/
theorem openElfFlags_Mapped (r : Bool) (es : obj.ElfSect) :
    (obj.openElfFlags r es).Mapped = (!r && (es.flags &&& obj.SHF_ALLOC != 0)) := by
  unfold obj.openElfFlags
  cases h1 : !r && (es.flags &&& obj.SHF_ALLOC != 0) <;>
    cases h2 : es.flags &&& obj.SHF_WRITE == 0 <;>
      cases h3 : es.typ == obj.SHT_NOBITS <;>
        simp [h1, h2, h3] <;> decide

/-- C7: `ResolveAddr` returns none for every relocatable file; for any
file it returns a section iff some section of the file marked mapped
(per the flag word assigned at open) contains the address, and whatever
section it returns is marked mapped and contains the address. -/
theorem C7_resolveAddr (f : obj.elfFile) (addr : Nat) :
    (f.relocatable = true → f.ResolveAddr addr = none) ∧
    ((f.ResolveAddr addr).isSome = true ↔
      ∃ es ∈ f.sections, (obj.openElfFlags f.relocatable es).Mapped = true ∧
        es.addr ≤ addr ∧ addr < es.addr + es.size) ∧
    (∀ es, f.ResolveAddr addr = some es →
      (obj.openElfFlags f.relocatable es).Mapped = true ∧
        es.addr ≤ addr ∧ addr < es.addr + es.size) := by
  by_cases hrel : f.relocatable = true
  · refine ⟨fun _ => by simp [obj.elfFile.ResolveAddr, hrel], ?_, ?_⟩
    · constructor
      · intro hs
        exfalso
        simp [obj.elfFile.ResolveAddr, hrel] at hs
      · rintro ⟨es, _, hmap, _⟩
        rw [openElfFlags_Mapped, hrel] at hmap
        simp at hmap
    · intro es hes
      simp [obj.elfFile.ResolveAddr, hrel] at hes
  · have hrel' : f.relocatable = false := by
      cases h : f.relocatable
      · rfl
      · exact absurd h hrel
    have hRA : f.ResolveAddr addr = f.sections.find? fun es =>
        es.flags &&& obj.SHF_ALLOC != 0 &&
          (decide (es.addr ≤ addr) && decide (addr - es.addr < es.size)) := by
      simp [obj.elfFile.ResolveAddr, hrel']
    have hpred : ∀ es : obj.ElfSect,
        ((es.flags &&& obj.SHF_ALLOC != 0) &&
          (decide (es.addr ≤ addr) && decide (addr - es.addr < es.size))) = true ↔
        ((obj.openElfFlags f.relocatable es).Mapped = true ∧
          es.addr ≤ addr ∧ addr < es.addr + es.size) := by
      intro es
      rw [openElfFlags_Mapped, hrel']
      simp only [Bool.not_false, Bool.true_and, Bool.and_eq_true, decide_eq_true_eq]
      constructor
      · rintro ⟨h1, h2, h3⟩
        exact ⟨h1, h2, by omega⟩
      · rintro ⟨h1, h2, h3⟩
        exact ⟨h1, h2, by omega⟩
    refine ⟨fun h => absurd h hrel, ?_, ?_⟩
    · rw [hRA, List.find?_isSome]
      constructor
      · rintro ⟨es, hmem, hp⟩
        exact ⟨es, hmem, (hpred es).mp hp⟩
      · rintro ⟨es, hmem, hp⟩
        exact ⟨es, hmem, (hpred es).mpr hp⟩
    · intro es hes
      rw [hRA] at hes
      have hp : (es.flags &&& obj.SHF_ALLOC != 0 &&
          (decide (es.addr ≤ addr) && decide (addr - es.addr < es.size))) = true :=
        @List.find?_some obj.ElfSect
          (fun s => s.flags &&& obj.SHF_ALLOC != 0 &&
            (decide (s.addr ≤ addr) && decide (addr - s.addr < s.size)))
          es f.sections hes
      exact (hpred es).mp hp

/-- Witness for C7 at a concrete non-relocatable file with one ALLOC
PROGBITS section covering [100, 110). -/
theorem C7_resolveAddr_witness :
    ((obj.elfFile.mk false [obj.ElfSect.mk 1 2 100 10]).ResolveAddr 105).isSome = true :=
  (C7_resolveAddr (obj.elfFile.mk false [obj.ElfSect.mk 1 2 100 10]) 105).2.1.mpr
    ⟨obj.ElfSect.mk 1 2 100 10, by decide, by decide, by decide, by decide⟩

/-- C8: `Open` reports the unrecognized-object-file-format error exactly
when the input's first four bytes are not the ELF magic `\x7fELF` (in
particular whenever fewer than four bytes can be read); once the magic
matches, any error `Open` reports is the ELF backend's own parsing
error, never the unrecognized-format one. -/
theorem C8_open {F E : Type} (parse : List Nat → Except E F) (input : List Nat) :
    ((obj.Open parse input).2 = some obj.ObjError.unrecognizedFormat ↔
      ¬ (4 ≤ input.length ∧ input.take 4 = [0x7f, 0x45, 0x4c, 0x46])) ∧
    (4 ≤ input.length ∧ input.take 4 = [0x7f, 0x45, 0x4c, 0x46] →
      ∀ e, (obj.Open parse input).2 = some e →
        ∃ msg, e = obj.ObjError.elfErr msg ∧ parse input = Except.error msg) := by
  by_cases hlen : input.length < 4
  · have h1 : obj.Open parse input = (none, some obj.ObjError.unrecognizedFormat) := by
      simp [obj.Open, obj.openElf, hlen]
    refine ⟨?_, fun hc => absurd hc.1 (by omega)⟩
    rw [h1]
    exact iff_of_true rfl (fun hc => absurd hc.1 (by omega))
  · by_cases hmag : input.take 4 = [0x7f, 0x45, 0x4c, 0x46]
    · cases hp : parse input with
      | error e =>
        have h1 : obj.Open parse input = (none, some (obj.ObjError.elfErr e)) := by
          simp [obj.Open, obj.openElf, hlen, hmag, hp]
        refine ⟨?_, ?_⟩
        · rw [h1]
          exact iff_of_false (by simp) (fun hneg => hneg ⟨by omega, hmag⟩)
        · intro _ e' he'
          rw [h1] at he'
          have he : e' = obj.ObjError.elfErr e := (Option.some.inj he').symm
          exact ⟨e, he, rfl⟩
      | ok f =>
        have h1 : obj.Open parse input = (some f, none) := by
          simp [obj.Open, obj.openElf, hlen, hmag, hp]
        refine ⟨?_, ?_⟩
        · rw [h1]
          exact iff_of_false (by simp) (fun hneg => hneg ⟨by omega, hmag⟩)
        · intro _ e' he'
          rw [h1] at he'
          exact absurd he' (by simp)
    · have h1 : obj.Open parse input = (none, some obj.ObjError.unrecognizedFormat) := by
        simp [obj.Open, obj.openElf, hlen, hmag]
      refine ⟨?_, fun hc => absurd hc.2 hmag⟩
      rw [h1]
      exact iff_of_true rfl (fun hc => hmag hc.2)

/-- Witness for C8 at a concrete input that is exactly the ELF magic,
with an ELF backend that fails with error 7. -/
theorem C8_open_witness :
    ∃ msg, (obj.ObjError.elfErr 7 : obj.ObjError Nat) = obj.ObjError.elfErr msg ∧
      (fun _ : List Nat => (Except.error 7 : Except Nat Unit)) [0x7f, 0x45, 0x4c, 0x46]
        = Except.error msg :=
  (C8_open (fun _ => Except.error 7) [0x7f, 0x45, 0x4c, 0x46]).2 (by decide)
    (obj.ObjError.elfErr 7) (by decide)

namespace avl

theorem height_eq (t : AvlTree) (h : Hok t) : height t = realHeight t := by
  cases t with
  | nil => rfl
  | node l k r p hc =>
    show hc = 1 + max (realHeight l) (realHeight r)
    exact h.2.2

theorem height_setParent (q : Option Nat) (t : AvlTree) :
    height (setParent q t) = height t := by
  cases t <;> rfl

theorem realHeight_setParent (q : Option Nat) (t : AvlTree) :
    realHeight (setParent q t) = realHeight t := by
  cases t <;> rfl

theorem Hok_setParent (q : Option Nat) (t : AvlTree) (h : Hok t) :
    Hok (setParent q t) := by
  cases t with
  | nil => trivial
  | node l k r p hc => exact h

theorem Bal_setParent (q : Option Nat) (t : AvlTree) (h : Bal t) :
    Bal (setParent q t) := by
  cases t with
  | nil => trivial
  | node l k r p hc => exact h

theorem SortedT_setParent (q : Option Nat) (t : AvlTree) (h : SortedT t) :
    SortedT (setParent q t) := by
  cases t with
  | nil => trivial
  | node l k r p hc => exact h

theorem allKeys_setParent (P : Nat → Prop) (q : Option Nat) (t : AvlTree)
    (h : allKeys P t) : allKeys P (setParent q t) := by
  cases t with
  | nil => trivial
  | node l k r p hc => exact h

theorem ParentOk_setParent (q q' : Option Nat) (t : AvlTree) (h : ParentOk t q') :
    ParentOk (setParent q t) q := by
  cases t with
  | nil => trivial
  | node l k r p hc => exact ⟨rfl, h.2.1, h.2.2⟩

theorem inorder_setParent (q : Option Nat) (t : AvlTree) :
    inorder (setParent q t) = inorder t := by
  cases t <;> rfl

theorem allKeys_mono (P Q : Nat → Prop) (hPQ : ∀ x, P x → Q x) (t : AvlTree)
    (h : allKeys P t) : allKeys Q t := by
  induction t with
  | nil => trivial
  | node l k r p hc ihl ihr => exact ⟨hPQ _ h.1, ihl h.2.1, ihr h.2.2⟩

theorem updateHeight_node (l : AvlTree) (k : Nat) (r : AvlTree) (p : Option Nat)
    (hc : Nat) (hl : height l = realHeight l) (hr : height r = realHeight r) :
    updateHeight (.node l k r p hc) = .node l k r p (1 + max (realHeight l) (realHeight r)) := by
  show AvlTree.node l k r p (if height l > height r then height l + 1 else height r + 1) = _
  rw [hl, hr]
  congr 1
  split <;> omega

theorem rotateRight_full (ll lr r : AvlTree) (lk k : Nat) (lp p : Option Nat)
    (lhc hc : Nat) (hHll : Hok ll) (hHlr : Hok lr) (hHr : Hok r) :
    rotateRight (.node (.node ll lk lr lp lhc) k r p hc) =
      .node ll lk (.node (setParent (some k) lr) k r (some lk)
          (1 + max (realHeight lr) (realHeight r))) p
        (1 + max (realHeight ll) (1 + max (realHeight lr) (realHeight r))) := by
  show updateHeight (.node ll lk
      (updateHeight (.node (setParent (some k) lr) k r (some lk) hc)) p lhc) = _
  rw [updateHeight_node _ _ _ _ _
    (by rw [height_setParent, height_eq lr hHlr, realHeight_setParent])
    (height_eq r hHr)]
  rw [updateHeight_node _ _ _ _ _ (height_eq ll hHll)
    (by simp [height, realHeight, realHeight_setParent])]
  simp [realHeight, realHeight_setParent]

theorem rotateLeft_full (l rl rr : AvlTree) (k rk : Nat) (rp p : Option Nat)
    (rhc hc : Nat) (hHl : Hok l) (hHrl : Hok rl) (hHrr : Hok rr) :
    rotateLeft (.node l k (.node rl rk rr rp rhc) p hc) =
      .node (.node l k (setParent (some k) rl) (some rk)
          (1 + max (realHeight l) (realHeight rl))) rk rr p
        (1 + max (1 + max (realHeight l) (realHeight rl)) (realHeight rr)) := by
  show updateHeight (.node
      (updateHeight (.node l k (setParent (some k) rl) (some rk) hc)) rk rr p rhc) = _
  rw [updateHeight_node _ _ _ _ _ (height_eq l hHl)
    (by rw [height_setParent, height_eq rl hHrl, realHeight_setParent])]
  rw [updateHeight_node _ _ _ _ _ (by simp [height, realHeight, realHeight_setParent])
    (height_eq rr hHrr)]
  simp [realHeight, realHeight_setParent]

theorem rebalanceStep_node (l : AvlTree) (k : Nat) (r : AvlTree) (p : Option Nat)
    (hc0 : Nat) (hl : height l = realHeight l) (hr : height r = realHeight r) :
    rebalanceStep (.node l k r p hc0) =
      if (realHeight l : Int) - realHeight r > 1 then
        if balance l < 0 then
          rotateRight (.node (rotateLeft l) k r p (1 + max (realHeight l) (realHeight r)))
        else rotateRight (.node l k r p (1 + max (realHeight l) (realHeight r)))
      else if (realHeight l : Int) - realHeight r < -1 then
        if balance r > 0 then
          rotateLeft (.node l k (rotateRight r) p (1 + max (realHeight l) (realHeight r)))
        else rotateLeft (.node l k r p (1 + max (realHeight l) (realHeight r)))
      else .node l k r p (1 + max (realHeight l) (realHeight r)) := by
  simp only [rebalanceStep]
  rw [hl, hr]
  have hmx : (if realHeight l > realHeight r then realHeight l + 1 else realHeight r + 1)
      = 1 + max (realHeight l) (realHeight r) := by
    split <;> omega
  rw [hmx]

theorem rebalanceStep_spec (l r : AvlTree) (k : Nat) (p : Option Nat) (hc : Nat)
    (hHl : Hok l) (hHr : Hok r) (hBl : Bal l) (hBr : Bal r)
    (hSl : SortedT l) (hSr : SortedT r)
    (hkl : allKeys (· < k) l) (hkr : allKeys (k < ·) r)
    (hPl : ParentOk l (some k)) (hPr : ParentOk r (some k))
    (hd1 : realHeight l ≤ realHeight r + 2) (hd2 : realHeight r ≤ realHeight l + 2) :
    Hok (rebalanceStep (.node l k r p hc)) ∧
    Bal (rebalanceStep (.node l k r p hc)) ∧
    SortedT (rebalanceStep (.node l k r p hc)) ∧
    ParentOk (rebalanceStep (.node l k r p hc)) p ∧
    (∀ P : Nat → Prop, P k → allKeys P l → allKeys P r →
      allKeys P (rebalanceStep (.node l k r p hc))) ∧
    max (realHeight l) (realHeight r) ≤ realHeight (rebalanceStep (.node l k r p hc)) ∧
    realHeight (rebalanceStep (.node l k r p hc)) ≤ 1 + max (realHeight l) (realHeight r) ∧
    (realHeight l ≤ realHeight r + 1 → realHeight r ≤ realHeight l + 1 →
      realHeight (rebalanceStep (.node l k r p hc)) = 1 + max (realHeight l) (realHeight r)) := by
  rw [rebalanceStep_node l k r p hc (height_eq l hHl) (height_eq r hHr)]
  by_cases h1 : (realHeight l : Int) - realHeight r > 1
  · rw [if_pos h1]
    cases l with
    | nil => exfalso; simp only [realHeight] at h1; omega
    | node ll lk lr lp lhc =>
      obtain ⟨hHll, hHlr, hlcache⟩ := hHl
      obtain ⟨hBll, hBlr, hb1, hb2⟩ := hBl
      obtain ⟨hSll, hSlr, hkll, hklr⟩ := hSl
      obtain ⟨hlkk, hklL, hklR⟩ := hkl
      obtain ⟨hlp, hPll, hPlr⟩ := hPl
      by_cases h2 : balance (AvlTree.node ll lk lr lp lhc) < 0
      · have h2' : realHeight ll < realHeight lr := by
          simp only [balance] at h2
          rw [height_eq ll hHll, height_eq lr hHlr] at h2
          omega
        rw [if_pos h2]
        cases lr with
        | nil => exfalso; simp only [realHeight] at h2'; omega
        | node lrl lrk lrr lrp lrhc =>
          obtain ⟨hHlrl, hHlrr, hlrcache⟩ := hHlr
          obtain ⟨hBlrl, hBlrr, hbl1, hbl2⟩ := hBlr
          obtain ⟨hSlrl, hSlrr, hklrl, hklrr⟩ := hSlr
          obtain ⟨hlrkk, hklRl, hklRr⟩ := hklR
          obtain ⟨hlrp, hPlrl, hPlrr⟩ := hPlr
          obtain ⟨hlklrk, hklrL, hklrR⟩ := hklr
          simp only [realHeight] at h1 hb1 hb2 hd1 hd2 h2'
          rw [rotateLeft_full ll lrl lrr lk lrk lrp lp lrhc lhc hHll hHlrl hHlrr]
          have hA : Hok (AvlTree.node ll lk (setParent (some lk) lrl) (some lrk)
              (1 + max (realHeight ll) (realHeight lrl))) :=
            ⟨hHll, Hok_setParent _ _ hHlrl, by rw [realHeight_setParent]⟩
          rw [rotateRight_full _ lrr r lrk k lp p _ _ hA hHlrr hHr]
          refine ⟨?_, ?_, ?_, ?_, ?_, ?_, ?_, ?_⟩
          · exact ⟨⟨hHll, Hok_setParent _ _ hHlrl, by rw [realHeight_setParent]⟩,
              ⟨Hok_setParent _ _ hHlrr, hHr, by rw [realHeight_setParent]⟩,
              by simp [realHeight, realHeight_setParent]⟩
          · refine ⟨⟨hBll, Bal_setParent _ _ hBlrl, ?_, ?_⟩,
              ⟨Bal_setParent _ _ hBlrr, hBr, ?_, ?_⟩, ?_, ?_⟩ <;>
              simp only [realHeight, realHeight_setParent] <;> omega
          · exact ⟨⟨hSll, SortedT_setParent _ _ hSlrl, hkll,
                allKeys_setParent _ _ _ hklrL⟩,
              ⟨SortedT_setParent _ _ hSlrr, hSr,
                allKeys_setParent _ _ _ hklRr, hkr⟩,
              ⟨hlklrk, allKeys_mono _ _ (fun x hx => lt_trans hx hlklrk) _ hkll,
                allKeys_setParent _ _ _ hklrl⟩,
              ⟨hlrkk, allKeys_setParent _ _ _ hklrr,
                allKeys_mono _ _ (fun x hx => lt_trans hlrkk hx) _ hkr⟩⟩
          · exact ⟨rfl, ⟨rfl, hPll, ParentOk_setParent _ _ _ hPlrl⟩,
              ⟨rfl, ParentOk_setParent _ _ _ hPlrr, hPr⟩⟩
          · intro P hPk hPl2 hPr2
            obtain ⟨hPlk, hPll2, hPlr2⟩ := hPl2
            obtain ⟨hPlrk, hPlrl2, hPlrr2⟩ := hPlr2
            exact ⟨hPlrk, ⟨hPlk, hPll2, allKeys_setParent _ _ _ hPlrl2⟩,
              ⟨hPk, allKeys_setParent _ _ _ hPlrr2, hPr2⟩⟩
          · simp only [realHeight, realHeight_setParent]; omega
          · simp only [realHeight, realHeight_setParent]; omega
          · intro h3 h4
            simp only [realHeight] at h3 h4
            simp only [realHeight, realHeight_setParent]
            omega
      · have h2' : realHeight lr ≤ realHeight ll := by
          simp only [balance] at h2
          rw [height_eq ll hHll, height_eq lr hHlr] at h2
          omega
        rw [if_neg h2]
        simp only [realHeight] at h1 hb1 hb2 hd1 hd2
        rw [rotateRight_full ll lr r lk k lp p lhc _ hHll hHlr hHr]
        refine ⟨?_, ?_, ?_, ?_, ?_, ?_, ?_, ?_⟩
        · exact ⟨hHll, ⟨Hok_setParent _ _ hHlr, hHr, by rw [realHeight_setParent]⟩,
            by simp [realHeight, realHeight_setParent]⟩
        · refine ⟨hBll, ⟨Bal_setParent _ _ hBlr, hBr, ?_, ?_⟩, ?_, ?_⟩ <;>
            simp only [realHeight, realHeight_setParent] <;> omega
        · exact ⟨hSll, ⟨SortedT_setParent _ _ hSlr, hSr,
              allKeys_setParent _ _ _ hklR, hkr⟩, hkll,
            ⟨hlkk, allKeys_setParent _ _ _ hklr,
              allKeys_mono _ _ (fun x hx => lt_trans hlkk hx) _ hkr⟩⟩
        · exact ⟨rfl, hPll, ⟨rfl, ParentOk_setParent _ _ _ hPlr, hPr⟩⟩
        · intro P hPk hPl2 hPr2
          obtain ⟨hPlk, hPll2, hPlr2⟩ := hPl2
          exact ⟨hPlk, hPll2, ⟨hPk, allKeys_setParent _ _ _ hPlr2, hPr2⟩⟩
        · simp only [realHeight, realHeight_setParent]; omega
        · simp only [realHeight, realHeight_setParent]; omega
        · intro h3 h4
          simp only [realHeight] at h3 h4
          simp only [realHeight, realHeight_setParent]
          omega
  · rw [if_neg h1]
    by_cases h1b : (realHeight l : Int) - realHeight r < -1
    · rw [if_pos h1b]
      cases r with
      | nil => exfalso; simp only [realHeight] at h1b; omega
      | node rl rk rr rp rhc =>
        obtain ⟨hHrl, hHrr, hrcache⟩ := hHr
        obtain ⟨hBrl, hBrr, hb1, hb2⟩ := hBr
        obtain ⟨hSrl, hSrr, hkrl, hkrr⟩ := hSr
        obtain ⟨hkrk, hkrL, hkrR⟩ := hkr
        obtain ⟨hrp, hPrl, hPrr⟩ := hPr
        by_cases h2 : balance (AvlTree.node rl rk rr rp rhc) > 0
        · have h2' : realHeight rr < realHeight rl := by
            simp only [balance] at h2
            rw [height_eq rl hHrl, height_eq rr hHrr] at h2
            omega
          rw [if_pos h2]
          cases rl with
          | nil => exfalso; simp only [realHeight] at h2'; omega
          | node rll rlk rlr rlp rlhc =>
            obtain ⟨hHrll, hHrlr, hrlcache⟩ := hHrl
            obtain ⟨hBrll, hBrlr, hbr1, hbr2⟩ := hBrl
            obtain ⟨hSrll, hSrlr, hkrll, hkrlr⟩ := hSrl
            obtain ⟨hkrlk0, hkrLl, hkrLr⟩ := hkrL
            obtain ⟨hrlp, hPrll, hPrlr⟩ := hPrl
            obtain ⟨hrlkrk, hkrlL, hkrlR⟩ := hkrl
            simp only [realHeight] at h1b hb1 hb2 hd1 hd2 h2'
            rw [rotateRight_full rll rlr rr rlk rk rlp rp rlhc rhc hHrll hHrlr hHrr]
            have hB0 : Hok (AvlTree.node (setParent (some rk) rlr) rk rr (some rlk)
                (1 + max (realHeight rlr) (realHeight rr))) :=
              ⟨Hok_setParent _ _ hHrlr, hHrr, by rw [realHeight_setParent]⟩
            rw [rotateLeft_full l rll _ k rlk rp p _ _ hHl hHrll hB0]
            refine ⟨?_, ?_, ?_, ?_, ?_, ?_, ?_, ?_⟩
            · exact ⟨⟨hHl, Hok_setParent _ _ hHrll,
                  by simp [realHeight_setParent]⟩,
                ⟨Hok_setParent _ _ hHrlr, hHrr, by rw [realHeight_setParent]⟩,
                by simp [realHeight, realHeight_setParent]⟩
            · refine ⟨⟨hBl, Bal_setParent _ _ hBrll, ?_, ?_⟩,
                ⟨Bal_setParent _ _ hBrlr, hBrr, ?_, ?_⟩, ?_, ?_⟩ <;>
                simp only [realHeight, realHeight_setParent] <;> omega
            · exact ⟨⟨hSl, SortedT_setParent _ _ hSrll, hkl,
                  allKeys_setParent _ _ _ hkrLl⟩,
                ⟨SortedT_setParent _ _ hSrlr, hSrr,
                  allKeys_setParent _ _ _ hkrlR, hkrr⟩,
                ⟨hkrlk0, allKeys_mono _ _ (fun x hx => lt_trans hx hkrlk0) _ hkl,
                  allKeys_setParent _ _ _ hkrll⟩,
                ⟨hrlkrk, allKeys_setParent _ _ _ hkrlr,
                  allKeys_mono _ _ (fun x hx => lt_trans hrlkrk hx) _ hkrr⟩⟩
            · exact ⟨rfl, ⟨rfl, hPl, ParentOk_setParent _ _ _ hPrll⟩,
                ⟨rfl, ParentOk_setParent _ _ _ hPrlr, hPrr⟩⟩
            · intro P hPk hPl2 hPr2
              obtain ⟨hPrk, hPrl2, hPrr2⟩ := hPr2
              obtain ⟨hPrlk, hPrll2, hPrlr2⟩ := hPrl2
              exact ⟨hPrlk, ⟨hPk, hPl2, allKeys_setParent _ _ _ hPrll2⟩,
                ⟨hPrk, allKeys_setParent _ _ _ hPrlr2, hPrr2⟩⟩
            · simp only [realHeight, realHeight_setParent]; omega
            · simp only [realHeight, realHeight_setParent]; omega
            · intro h3 h4
              simp only [realHeight] at h3 h4
              simp only [realHeight, realHeight_setParent]
              omega
        · have h2' : realHeight rl ≤ realHeight rr := by
            simp only [balance] at h2
            rw [height_eq rl hHrl, height_eq rr hHrr] at h2
            omega
          rw [if_neg h2]
          simp only [realHeight] at h1b hb1 hb2 hd1 hd2
          rw [rotateLeft_full l rl rr k rk rp p rhc _ hHl hHrl hHrr]
          refine ⟨?_, ?_, ?_, ?_, ?_, ?_, ?_, ?_⟩
          · exact ⟨⟨hHl, Hok_setParent _ _ hHrl, by rw [realHeight_setParent]⟩,
              hHrr, by simp [realHeight, realHeight_setParent]⟩
          · refine ⟨⟨hBl, Bal_setParent _ _ hBrl, ?_, ?_⟩, hBrr, ?_, ?_⟩ <;>
              simp only [realHeight, realHeight_setParent] <;> omega
          · exact ⟨⟨hSl, SortedT_setParent _ _ hSrl, hkl,
                allKeys_setParent _ _ _ hkrL⟩, hSrr,
              ⟨hkrk, allKeys_mono _ _ (fun x hx => lt_trans hx hkrk) _ hkl,
                allKeys_setParent _ _ _ hkrl⟩, hkrr⟩
          · exact ⟨rfl, ⟨rfl, hPl, ParentOk_setParent _ _ _ hPrl⟩, hPrr⟩
          · intro P hPk hPl2 hPr2
            obtain ⟨hPrk, hPrl2, hPrr2⟩ := hPr2
            exact ⟨hPrk, ⟨hPk, hPl2, allKeys_setParent _ _ _ hPrl2⟩, hPrr2⟩
          · simp only [realHeight, realHeight_setParent]; omega
          · simp only [realHeight, realHeight_setParent]; omega
          · intro h3 h4
            simp only [realHeight] at h3 h4
            simp only [realHeight, realHeight_setParent]
            omega
    · rw [if_neg h1b]
      refine ⟨⟨hHl, hHr, rfl⟩, ⟨hBl, hBr, ?_, ?_⟩, ⟨hSl, hSr, hkl, hkr⟩,
        ⟨rfl, hPl, hPr⟩, fun P hPk hPl2 hPr2 => ⟨hPk, hPl2, hPr2⟩, ?_, ?_, ?_⟩
      · omega
      · omega
      · simp only [realHeight]; omega
      · simp only [realHeight]; omega
      · intro h3 h4
        simp only [realHeight]

theorem insertGo_spec (k : Nat) (t : AvlTree) : ∀ (p : Option Nat),
    Hok t → Bal t → SortedT t → ParentOk t p →
    ∀ t2, insertGo k p t = some t2 →
      Hok t2 ∧ Bal t2 ∧ SortedT t2 ∧ ParentOk t2 p ∧
      (∀ P : Nat → Prop, P k → allKeys P t → allKeys P t2) ∧
      realHeight t ≤ realHeight t2 + 1 ∧ realHeight t2 ≤ realHeight t + 1 := by
  induction t with
  | nil =>
    intro p _ _ _ hP t2 ht2
    have ht2' : t2 = AvlTree.node .nil k .nil p 1 := by
      simpa [insertGo] using ht2.symm
    subst ht2'
    refine ⟨⟨trivial, trivial, by simp [realHeight]⟩, ⟨trivial, trivial, by simp [realHeight],
      by simp [realHeight]⟩, ⟨trivial, trivial, trivial, trivial⟩, ⟨rfl, trivial, trivial⟩,
      fun P hPk _ => ⟨hPk, trivial, trivial⟩, ?_, ?_⟩ <;> simp [realHeight]
  | node l key r par hc ihl ihr =>
    intro p hH hB hS hP t2 ht2
    obtain ⟨hHl, hHr, hcache⟩ := hH
    obtain ⟨hBl, hBr, hb1, hb2⟩ := hB
    obtain ⟨hSl, hSr, hkl, hkr⟩ := hS
    obtain ⟨hpar, hPl, hPr⟩ := hP
    subst hpar
    by_cases hlt : k < key
    · rw [insertGo, if_pos hlt] at ht2
      obtain ⟨l2, hl2, ht2'⟩ := Option.map_eq_some'.mp ht2
      obtain ⟨o1, o2, o3, o4, o5, o6, o7⟩ :=
        ihl (some key) hHl hBl hSl hPl l2 hl2
      have hkl2 : allKeys (· < key) l2 := o5 _ hlt hkl
      obtain ⟨s1, s2, s3, s4, s5, s6, s7, s8⟩ :=
        rebalanceStep_spec l2 r key par hc o1 hHr o2 hBr o3 hSr hkl2 hkr o4 hPr
          (by omega) (by omega)
      subst ht2'
      refine ⟨s1, s2, s3, s4, ?_, ?_, ?_⟩
      · intro P hPk hPt
        exact s5 P hPt.1 (o5 P hPk hPt.2.1) hPt.2.2
      · by_cases hA : realHeight l2 ≤ realHeight r + 1
        · by_cases hB2 : realHeight r ≤ realHeight l2 + 1
          · have h8 := s8 hA hB2
            simp only [realHeight]
            omega
          · simp only [realHeight]
            omega
        · simp only [realHeight]
          omega
      · simp only [realHeight]
        omega
    · by_cases hgt : key < k
      · rw [insertGo, if_neg hlt, if_pos hgt] at ht2
        obtain ⟨r2, hr2, ht2'⟩ := Option.map_eq_some'.mp ht2
        obtain ⟨o1, o2, o3, o4, o5, o6, o7⟩ :=
          ihr (some key) hHr hBr hSr hPr r2 hr2
        have hkr2 : allKeys (key < ·) r2 := o5 _ hgt hkr
        obtain ⟨s1, s2, s3, s4, s5, s6, s7, s8⟩ :=
          rebalanceStep_spec l r2 key par hc hHl o1 hBl o2 hSl o3 hkl hkr2 hPl o4
            (by omega) (by omega)
        subst ht2'
        refine ⟨s1, s2, s3, s4, ?_, ?_, ?_⟩
        · intro P hPk hPt
          exact s5 P hPt.1 hPt.2.1 (o5 P hPk hPt.2.2)
        · by_cases hA : realHeight l ≤ realHeight r2 + 1
          · by_cases hB2 : realHeight r2 ≤ realHeight l + 1
            · have h8 := s8 hA hB2
              simp only [realHeight]
              omega
            · simp only [realHeight]
              omega
          · simp only [realHeight]
            omega
        · simp only [realHeight]
          omega
      · rw [insertGo, if_neg hlt, if_neg hgt] at ht2
        exact absurd ht2 (by simp)

theorem removeMin_spec (t : AvlTree) : ∀ (p : Option Nat),
    t ≠ .nil → Hok t → Bal t → SortedT t → ParentOk t p →
    Hok (removeMin t).2 ∧ Bal (removeMin t).2 ∧ SortedT (removeMin t).2 ∧
    ParentOk (removeMin t).2 p ∧
    (∀ P : Nat → Prop, allKeys P t → P (removeMin t).1 ∧ allKeys P (removeMin t).2) ∧
    allKeys ((removeMin t).1 < ·) (removeMin t).2 ∧
    realHeight t ≤ realHeight (removeMin t).2 + 1 ∧
    realHeight (removeMin t).2 ≤ realHeight t := by
  induction t with
  | nil => intro p hne _ _ _ _; exact absurd rfl hne
  | node l k r par hc ihl ihr =>
    intro p _ hH hB hS hP
    obtain ⟨hHl, hHr, hcache⟩ := hH
    obtain ⟨hBl, hBr, hb1, hb2⟩ := hB
    obtain ⟨hSl, hSr, hkl, hkr⟩ := hS
    obtain ⟨hpar, hPl, hPr⟩ := hP
    subst hpar
    cases l with
    | nil =>
      refine ⟨Hok_setParent _ _ hHr, Bal_setParent _ _ hBr, SortedT_setParent _ _ hSr,
        ParentOk_setParent _ _ _ hPr, ?_, ?_, ?_, ?_⟩
      · intro P hPt
        exact ⟨hPt.1, allKeys_setParent _ _ _ hPt.2.2⟩
      · exact allKeys_setParent _ _ _ hkr
      · show realHeight (AvlTree.node .nil k r par hc) ≤ realHeight (setParent par r) + 1
        rw [realHeight_setParent]
        simp only [realHeight]
        omega
      · show realHeight (setParent par r) ≤ realHeight (AvlTree.node .nil k r par hc)
        rw [realHeight_setParent]
        simp only [realHeight]
        omega
    | node a b c d e =>
      obtain ⟨o1, o2, o3, o4, o5, o6, o7, o8⟩ :=
        ihl (some k) (by simp) hHl hBl hSl hPl
      have hred1 : (removeMin (AvlTree.node (AvlTree.node a b c d e) k r par hc)).1
          = (removeMin (AvlTree.node a b c d e)).1 := rfl
      have hred2 : (removeMin (AvlTree.node (AvlTree.node a b c d e) k r par hc)).2
          = rebalanceStep (AvlTree.node (removeMin (AvlTree.node a b c d e)).2 k r par hc) :=
        rfl
      rw [hred1, hred2]
      have hkres : allKeys (· < k) (removeMin (AvlTree.node a b c d e)).2 := (o5 _ hkl).2
      have hmk : (removeMin (AvlTree.node a b c d e)).1 < k := (o5 _ hkl).1
      obtain ⟨s1, s2, s3, s4, s5, s6, s7, s8⟩ :=
        rebalanceStep_spec (removeMin (AvlTree.node a b c d e)).2 r k par hc
          o1 hHr o2 hBr o3 hSr hkres hkr o4 hPr (by omega) (by omega)
      have hout : realHeight (AvlTree.node (AvlTree.node a b c d e) k r par hc)
          = 1 + max (realHeight (AvlTree.node a b c d e)) (realHeight r) := rfl
      refine ⟨s1, s2, s3, s4, ?_, ?_, ?_, ?_⟩
      · intro P hPt
        obtain ⟨hPk, hPL, hPR⟩ := hPt
        obtain ⟨hPm, hPres⟩ := o5 P hPL
        exact ⟨hPm, s5 P hPk hPres hPR⟩
      · exact s5 _ hmk o6 (allKeys_mono _ _ (fun x hx => lt_trans hmk hx) _ hkr)
      · by_cases hA : realHeight (removeMin (AvlTree.node a b c d e)).2 ≤ realHeight r + 1
        · by_cases hB2 :
              realHeight r ≤ realHeight (removeMin (AvlTree.node a b c d e)).2 + 1
          · have h8 := s8 hA hB2
            rw [hout]
            omega
          · rw [hout]
            omega
        · rw [hout]
          omega
      · rw [hout]
        omega

theorem deleteGo_spec (k : Nat) (t : AvlTree) : ∀ (p : Option Nat),
    Hok t → Bal t → SortedT t → ParentOk t p →
    ∀ t2, deleteGo k t = some t2 →
      Hok t2 ∧ Bal t2 ∧ SortedT t2 ∧ ParentOk t2 p ∧
      (∀ P : Nat → Prop, allKeys P t → allKeys P t2) ∧
      realHeight t ≤ realHeight t2 + 1 ∧ realHeight t2 ≤ realHeight t := by
  induction t with
  | nil =>
    intro p _ _ _ _ t2 ht2
    exact absurd ht2 (by simp [deleteGo])
  | node l key r par hc ihl ihr =>
    intro p hH hB hS hP t2 ht2
    obtain ⟨hHl, hHr, hcache⟩ := hH
    obtain ⟨hBl, hBr, hb1, hb2⟩ := hB
    obtain ⟨hSl, hSr, hkl, hkr⟩ := hS
    obtain ⟨hpar, hPl, hPr⟩ := hP
    subst hpar
    by_cases hlt : k < key
    · rw [deleteGo, if_pos hlt] at ht2
      obtain ⟨l2, hl2, ht2'⟩ := Option.map_eq_some'.mp ht2
      obtain ⟨o1, o2, o3, o4, o5, o6, o7⟩ := ihl (some key) hHl hBl hSl hPl l2 hl2
      have hkl2 : allKeys (· < key) l2 := o5 _ hkl
      obtain ⟨s1, s2, s3, s4, s5, s6, s7, s8⟩ :=
        rebalanceStep_spec l2 r key par hc o1 hHr o2 hBr o3 hSr hkl2 hkr o4 hPr
          (by omega) (by omega)
      subst ht2'
      refine ⟨s1, s2, s3, s4, ?_, ?_, ?_⟩
      · intro P hPt
        exact s5 P hPt.1 (o5 P hPt.2.1) hPt.2.2
      · by_cases hA : realHeight l2 ≤ realHeight r + 1
        · by_cases hB2 : realHeight r ≤ realHeight l2 + 1
          · have h8 := s8 hA hB2
            simp only [realHeight]
            omega
          · simp only [realHeight]
            omega
        · simp only [realHeight]
          omega
      · simp only [realHeight]
        omega
    · by_cases hgt : key < k
      · rw [deleteGo, if_neg hlt, if_pos hgt] at ht2
        obtain ⟨r2, hr2, ht2'⟩ := Option.map_eq_some'.mp ht2
        obtain ⟨o1, o2, o3, o4, o5, o6, o7⟩ := ihr (some key) hHr hBr hSr hPr r2 hr2
        have hkr2 : allKeys (key < ·) r2 := o5 _ hkr
        obtain ⟨s1, s2, s3, s4, s5, s6, s7, s8⟩ :=
          rebalanceStep_spec l r2 key par hc hHl o1 hBl o2 hSl o3 hkl hkr2 hPl o4
            (by omega) (by omega)
        subst ht2'
        refine ⟨s1, s2, s3, s4, ?_, ?_, ?_⟩
        · intro P hPt
          exact s5 P hPt.1 hPt.2.1 (o5 P hPt.2.2)
        · by_cases hA : realHeight l ≤ realHeight r2 + 1
          · by_cases hB2 : realHeight r2 ≤ realHeight l + 1
            · have h8 := s8 hA hB2
              simp only [realHeight]
              omega
            · simp only [realHeight]
              omega
          · simp only [realHeight]
            omega
        · simp only [realHeight]
          omega
      · rw [deleteGo, if_neg hlt, if_neg hgt] at ht2
        have ht2' := (Option.some.inj ht2).symm
        cases l with
        | nil =>
          have ht2x : t2 = setParent par r := ht2'
          subst ht2x
          clear ht2'
          refine ⟨Hok_setParent _ _ hHr, Bal_setParent _ _ hBr, SortedT_setParent _ _ hSr,
            ParentOk_setParent _ _ _ hPr, ?_, ?_, ?_⟩
          · intro P hPt
            exact allKeys_setParent _ _ _ hPt.2.2
          · show realHeight (AvlTree.node .nil key r par hc) ≤ realHeight (setParent par r) + 1
            rw [realHeight_setParent]
            simp only [realHeight]
            omega
          · show realHeight (setParent par r) ≤ realHeight (AvlTree.node .nil key r par hc)
            rw [realHeight_setParent]
            simp only [realHeight]
            omega
        | node la lb lc ld le =>
          cases r with
          | nil =>
            have ht2x : t2 = setParent par (AvlTree.node la lb lc ld le) := ht2'
            subst ht2x
            clear ht2'
            refine ⟨Hok_setParent _ _ hHl, Bal_setParent _ _ hBl,
              SortedT_setParent _ _ hSl, ParentOk_setParent _ _ _ hPl, ?_, ?_, ?_⟩
            · intro P hPt
              exact allKeys_setParent _ _ _ hPt.2.1
            · show realHeight (AvlTree.node (AvlTree.node la lb lc ld le) key .nil par hc)
                  ≤ realHeight (setParent par (AvlTree.node la lb lc ld le)) + 1
              rw [realHeight_setParent]
              simp only [realHeight]
              omega
            · show realHeight (setParent par (AvlTree.node la lb lc ld le))
                  ≤ realHeight (AvlTree.node (AvlTree.node la lb lc ld le) key .nil par hc)
              rw [realHeight_setParent]
              simp only [realHeight]
              omega
          | node ra rb rc rd re =>
            have ht2x : t2 = rebalanceStep (AvlTree.node
                (setParent (some (removeMin (AvlTree.node ra rb rc rd re)).1)
                  (AvlTree.node la lb lc ld le))
                (removeMin (AvlTree.node ra rb rc rd re)).1
                (setParent (some (removeMin (AvlTree.node ra rb rc rd re)).1)
                  (removeMin (AvlTree.node ra rb rc rd re)).2) par hc) := ht2'
            subst ht2x
            clear ht2'
            obtain ⟨m1, m2, m3, m4, m5, m6, m7, m8⟩ :=
              removeMin_spec (AvlTree.node ra rb rc rd re) (some key) (by simp)
                hHr hBr hSr hPr
            have hkeym : key < (removeMin (AvlTree.node ra rb rc rd re)).1 :=
              (m5 _ hkr).1
            obtain ⟨s1, s2, s3, s4, s5, s6, s7, s8⟩ :=
              rebalanceStep_spec
                (setParent (some (removeMin (AvlTree.node ra rb rc rd re)).1)
                  (AvlTree.node la lb lc ld le))
                (setParent (some (removeMin (AvlTree.node ra rb rc rd re)).1)
                  (removeMin (AvlTree.node ra rb rc rd re)).2)
                (removeMin (AvlTree.node ra rb rc rd re)).1 par hc
                (Hok_setParent _ _ hHl) (Hok_setParent _ _ m1)
                (Bal_setParent _ _ hBl) (Bal_setParent _ _ m2)
                (SortedT_setParent _ _ hSl) (SortedT_setParent _ _ m3)
                (allKeys_setParent _ _ _
                  (allKeys_mono _ _ (fun x hx => lt_trans hx hkeym) _ hkl))
                (allKeys_setParent _ _ _ m6)
                (ParentOk_setParent _ _ _ hPl) (ParentOk_setParent _ _ _ m4)
                (by simp only [realHeight_setParent]; omega)
                (by simp only [realHeight_setParent]; omega)
            simp only [realHeight_setParent] at s6 s7
            have hout : realHeight (AvlTree.node (AvlTree.node la lb lc ld le) key
                  (AvlTree.node ra rb rc rd re) par hc)
                = 1 + max (realHeight (AvlTree.node la lb lc ld le))
                    (realHeight (AvlTree.node ra rb rc rd re)) := rfl
            refine ⟨s1, s2, s3, s4, ?_, ?_, ?_⟩
            · intro P hPt
              obtain ⟨hPk, hPL, hPR⟩ := hPt
              obtain ⟨hPm, hPR2⟩ := m5 P hPR
              exact s5 P hPm (allKeys_setParent _ _ _ hPL) (allKeys_setParent _ _ _ hPR2)
            · by_cases hA : realHeight (AvlTree.node la lb lc ld le)
                  ≤ realHeight (removeMin (AvlTree.node ra rb rc rd re)).2 + 1
              · by_cases hB2 : realHeight (removeMin (AvlTree.node ra rb rc rd re)).2
                    ≤ realHeight (AvlTree.node la lb lc ld le) + 1
                · have h8 := s8 (by simp only [realHeight_setParent]; omega)
                    (by simp only [realHeight_setParent]; omega)
                  simp only [realHeight_setParent] at h8
                  rw [hout]
                  omega
                · rw [hout]
                  omega
              · rw [hout]
                omega
            · rw [hout]
              omega

theorem allKeys_mem (P : Nat → Prop) (t : AvlTree) (h : allKeys P t) :
    ∀ x ∈ inorder t, P x := by
  induction t with
  | nil => intro x hx; simp [inorder] at hx
  | node l k r p hc ihl ihr =>
    intro x hx
    rcases List.mem_append.mp hx with hx | hx
    · exact ihl h.2.1 x hx
    · rcases List.mem_cons.mp hx with rfl | hx
      · exact h.1
      · exact ihr h.2.2 x hx

theorem sortedT_pairwise (t : AvlTree) (h : SortedT t) :
    (inorder t).Pairwise (· < ·) := by
  induction t with
  | nil => exact List.Pairwise.nil
  | node l k r p hc ihl ihr =>
    obtain ⟨hSl, hSr, hkl, hkr⟩ := h
    refine List.pairwise_append.mpr ⟨ihl hSl, ?_, ?_⟩
    · exact List.pairwise_cons.mpr ⟨allKeys_mem _ _ hkr, ihr hSr⟩
    · intro x hx y hy
      rcases List.mem_cons.mp hy with rfl | hy
      · exact allKeys_mem _ _ hkl x hx
      · exact lt_trans (allKeys_mem _ _ hkl x hx) (allKeys_mem _ _ hkr y hy)

theorem applyOp_invariant (t : AvlTree) (op : AvlOp)
    (h : Hok t ∧ Bal t ∧ SortedT t ∧ ParentOk t none) :
    Hok (applyOp t op) ∧ Bal (applyOp t op) ∧ SortedT (applyOp t op) ∧
      ParentOk (applyOp t op) none := by
  obtain ⟨hH, hB, hS, hP⟩ := h
  cases op with
  | ins k =>
    rw [show applyOp t (AvlOp.ins k) = (insertGo k none t).getD t from rfl]
    cases hi : insertGo k none t with
    | none => exact ⟨hH, hB, hS, hP⟩
    | some t2 =>
      obtain ⟨o1, o2, o3, o4, _, _, _⟩ := insertGo_spec k t none hH hB hS hP t2 hi
      exact ⟨o1, o2, o3, o4⟩
  | del k =>
    rw [show applyOp t (AvlOp.del k) = (deleteGo k t).getD t from rfl]
    cases hd : deleteGo k t with
    | none => exact ⟨hH, hB, hS, hP⟩
    | some t2 =>
      obtain ⟨o1, o2, o3, o4, _, _, _⟩ := deleteGo_spec k t none hH hB hS hP t2 hd
      exact ⟨o1, o2, o3, o4⟩

theorem runOps_invariant (ops : List AvlOp) :
    Hok (runOps ops) ∧ Bal (runOps ops) ∧ SortedT (runOps ops) ∧
      ParentOk (runOps ops) none := by
  have main : ∀ (l : List AvlOp) (t : AvlTree),
      Hok t ∧ Bal t ∧ SortedT t ∧ ParentOk t none →
      Hok (l.foldl applyOp t) ∧ Bal (l.foldl applyOp t) ∧
        SortedT (l.foldl applyOp t) ∧ ParentOk (l.foldl applyOp t) none := by
    intro l
    induction l with
    | nil => exact fun t h => h
    | cons op rest ih =>
      intro t h
      exact ih (applyOp t op) (applyOp_invariant t op h)
  exact main ops .nil ⟨trivial, trivial, trivial, trivial⟩

/-- C9: after every sequence of Insert and Delete operations on the AVL
tree underlying imap (starting from the empty tree; deleting an absent
key is a no-op, matching the source's precondition that `Delete` is only
handed nodes of the tree), every node's subtrees differ in height by at
most one, every height cache stores 1 + the maximum of its children's
heights, every node's parent pointer names its actual parent (the
root's is nil), and in-order traversal yields strictly increasing
keys. -/
theorem C9_avl_invariants (ops : List AvlOp) :
    Bal (runOps ops) ∧ Hok (runOps ops) ∧ ParentOk (runOps ops) none ∧
      (inorder (runOps ops)).Pairwise (· < ·) := by
  obtain ⟨h1, h2, h3, h4⟩ := runOps_invariant ops
  exact ⟨h2, h1, h4, sortedT_pairwise _ h3⟩

end avl


/-- C6: the claim says that after any successful SeekPC or SeekSubprogram,
every subsequent sequence of successful Next() calls yields rows with
monotonically non-decreasing Line.Address. Counterexample run, evaluated
on the model: one compilation unit whose line table has rows at
addresses 15 and 25 and an end-of-sequence row at 35; a reader is
positioned with SeekSubprogram inside a subprogram scoped to [10, 20),
then repositioned with SeekPC(15) over the unit map [0, 100). `seek`
keeps the stale range iterator — its interval [10, 20) still contains
15 — although the scope map changed, so the next row (address 25) is
clipped at the stale high end into a synthesized end-of-sequence row at
address 20; the Next after that re-seeks over the unit map and yields
the row covering address 20, which starts at 15. The successful Next
calls after the successful SeekPC hence yield addresses 20, 15, 25,
and 15 < 20 violates the claimed monotonicity. -/
theorem C6_next_address_can_decrease :
    (((dbg.seek dbg.lineD dbg.subMapC 15 dbg.initLR).bind fun st1 =>
        dbg.seek dbg.lineD dbg.cuMapC 15 st1).map fun st2 =>
      dbg.traceNexts dbg.lineD st2 3) = some [some 20, some 15, some 25] ∧
    (15 : Nat) < 20 := by decide
